import Mathlib

/-!
Verification development for the `license-scout` dependency scanner.

The Rust sources are shallowly embedded:
* Rust `&str` / `String` values that the parsers walk character by
  character are modelled as `List Char` (the pip requirement parser) or
  as Lean `String` (record fields, cache keys, JSON payloads);
* `serde_json::Value` is the inductive `Json` below (numbers carry no
  payload we ever inspect, so they are a single constructor);
* `PathBuf` is modelled as its list of path components (`List String`);
  `Path::cmp` in Rust compares component-wise, which the model mirrors;
* fallible operations return `Option` / `Except Unit`;
* `HashMap` is modelled as an association list with insert-or-replace
  semantics (only `get`/`insert` are used by the code).
-/

namespace LicenseScout

/-! ## Character-level string utilities (Rust `str` methods) -/

/-- Rust `char::is_whitespace`, restricted to the ASCII fragment the
manifests use (Lean's `Char.isWhitespace`). -/
def isWs (c : Char) : Bool := c.isWhitespace

/-- Rust `str::trim` on a character list: drop leading and trailing
whitespace. -/
def trimL (l : List Char) : List Char :=
  ((l.dropWhile isWs).reverse.dropWhile isWs).reverse

/-- Rust `str::find(pattern)` for a literal pattern: index of the
leftmost occurrence of `pat` in `l`. -/
def findSub : List Char → List Char → Option Nat
  | l, pat =>
    if pat.isPrefixOf l then some 0
    else
      match l with
      | [] => none
      | _ :: t => (findSub t pat).map (· + 1)

/-- Rust `char::to_ascii_lowercase` (Lean's `Char.toLower` is exactly
the ASCII case fold). -/
def asciiLowerChar (c : Char) : Char := c.toLower

/-- Rust `str::to_ascii_lowercase` on a Lean `String`. -/
def asciiLower (s : String) : String := ⟨s.data.map asciiLowerChar⟩

/-- Rust `str::eq_ignore_ascii_case`. -/
def eqIgnoreAsciiCase (a b : String) : Bool :=
  asciiLower a == asciiLower b

/-- Rust `str::trim` on a Lean `String`. -/
def rustTrim (s : String) : String := ⟨trimL s.data⟩

/-! ## Pip requirement parser (`scan.rs`)

`parse_requirement_line` and `normalize_package_name` are pure
character-level functions; they are embedded over `List Char`. -/

/-- The comparator tokens searched for, in the priority order of the
source's `markers` array: `===, ==, >=, <=, ~=, !=, >, <, =`. -/
def markers : List (List Char) :=
  [['=', '=', '='], ['=', '='], ['>', '='], ['<', '='], ['~', '='],
   ['!', '='], ['>'], ['<'], ['=']]

/-- `normalize_package_name` from `scan.rs`: trim, take the part before
any `[` (extras marker), replace `_` by `-`; an empty trimmed name is
rejected. -/
def normalize_package_name (name : List Char) : Option (List Char) :=
  let trimmed := trimL name
  if trimmed.isEmpty then none
  else
    some ((trimmed.takeWhile (· ≠ '[')).map
      (fun c => if c = '_' then '-' else c))

/-- `parse_requirement_line` from `scan.rs`. Strips a `#` comment,
rejects blank lines and lines starting with `-`, strips an environment
marker after `;`, then splits at the first comparator token found in
priority order. -/
def parse_requirement_line (line : List Char) :
    Option (List Char × Option (List Char)) :=
  let without_comment := trimL (line.takeWhile (· ≠ '#'))
  if without_comment.isEmpty then none
  else if without_comment.head? = some '-' then none
  else
    let requirement := trimL (without_comment.takeWhile (· ≠ ';'))
    if requirement.isEmpty then none
    else
      match markers.findSome? (fun m => (findSub requirement m).map ((m, ·))) with
      | some (m, idx) =>
        let name_part := requirement.take idx
        let version := trimL (requirement.drop (idx + m.length))
        match normalize_package_name (trimL name_part) with
        | none => none
        | some n => some (n, if version.isEmpty then none else some version)
      | none =>
        match normalize_package_name requirement with
        | none => none
        | some n => some (n, none)

example :
    parse_requirement_line ['r','e','q','u','e','s','t','s','=','=','2','.','3','2','.','0'] =
      some (['r','e','q','u','e','s','t','s'], some ['2','.','3','2','.','0']) := by decide

example :
    parse_requirement_line
      ['u','v','i','c','o','r','n','[','s','t','a','n','d','a','r','d',']','>','=','0','.','2','7'] =
      some (['u','v','i','c','o','r','n'], some ['0','.','2','7']) := by decide

example : parse_requirement_line ['#',' ','c'] = none := by decide
example : parse_requirement_line [] = none := by decide

-- C4 scratch: "foo====1.0" parses to ("foo", "=1.0"); its rendering
-- "foo===1.0" re-parses to ("foo", "1.0").
example :
    parse_requirement_line ['f','o','o','=','=','=','=','1','.','0'] =
      some (['f','o','o'], some ['=','1','.','0']) := by decide
example :
    parse_requirement_line ['f','o','o','=','=','=','1','.','0'] =
      some (['f','o','o'], some ['1','.','0']) := by decide

/-! ## Data model (`types.rs`) -/

/-- `serde_json::Value`. Numbers carry no payload the scanner ever
inspects, so a single constructor stands for all of them. Objects are
association lists with first-match lookup. -/
inductive Json where
  | null
  | bool (b : Bool)
  | num
  | str (s : String)
  | arr (elems : List Json)
  | obj (fields : List (String × Json))

/-- `serde_json::Map::get`: first binding of `key`. -/
def lookupField : List (String × Json) → String → Option Json
  | [], _ => none
  | (k, v) :: t, key => if k = key then some v else lookupField t key

/-- `Value::get(key)`: field lookup on objects, `None` elsewhere. -/
def Json.get (j : Json) (key : String) : Option Json :=
  match j with
  | .obj fields => lookupField fields key
  | _ => none

/-- `Value::as_str`. -/
def Json.asStr? : Json → Option String
  | .str s => some s
  | _ => none

/-- `Value::as_object` (the field list). -/
def Json.asObj? : Json → Option (List (String × Json))
  | .obj fields => some fields
  | _ => none

/-- Decidable equality for `Except` results, used only to evaluate the
model on concrete inputs. -/
instance {ε α : Type} [DecidableEq ε] [DecidableEq α] :
    DecidableEq (Except ε α) := fun a b =>
  match a, b with
  | .error e, .error f =>
    if h : e = f then isTrue (by rw [h])
    else isFalse (fun hc => h (by injection hc))
  | .error _, .ok _ => isFalse (fun hc => Except.noConfusion hc)
  | .ok _, .error _ => isFalse (fun hc => Except.noConfusion hc)
  | .ok a, .ok b =>
    if h : a = b then isTrue (by rw [h])
    else isFalse (fun hc => h (by injection hc))

/-- `DependencyRecord` from `types.rs`; `source : PathBuf` is modelled
as the path's component list. -/
structure DependencyRecord where
  manager : String
  name : String
  version : Option String
  license : String
  source : List String
  homepage : Option String
deriving DecidableEq, Repr

/-- `PackageMetadata` from `types.rs`. -/
structure PackageMetadata where
  license : Option String
  homepage : Option String
deriving DecidableEq, Repr

/-! ## License field extraction and npm lockfile parser (`scan.rs`) -/

mutual

/-- `extract_license` from `scan.rs`: string used as-is; array
recursively extracted, present results joined with `", "` (empty result
set means no license); object uses the string value of its `type`
field; anything else yields no license. -/
def extract_license : Json → Option String
  | .str s => some s
  | .arr values =>
    let merged := extractLicenseList values
    if merged.isEmpty then none else some (String.intercalate ", " merged)
  | .obj map => (lookupField map "type").bind Json.asStr?
  | _ => none

/-- `values.iter().filter_map(extract_license).collect()`. -/
def extractLicenseList : List Json → List String
  | [] => []
  | v :: vs =>
    match extract_license v with
    | some s => s :: extractLicenseList vs
    | none => extractLicenseList vs

end

example :
    extract_license (.arr [.str "MIT", .str "Apache-2.0"]) = some "MIT, Apache-2.0" := by decide
example : extract_license (.obj [("type", .str "ISC")]) = some "ISC" := by decide
example : extract_license .null = none := by decide
example : extract_license (.str "") = some "" := by decide

/-- Rust `str::split(sep)` on a character list (keeps empty pieces, at
least one piece for any input). -/
def splitOnChar (c : Char) : List Char → List (List Char)
  | [] => [[]]
  | x :: t =>
    if x = c then [] :: splitOnChar c t
    else
      match splitOnChar c t with
      | [] => [[x]]
      | h :: r => (x :: h) :: r

/-- `package_name_from_path` from `scan.rs`: split the install path on
`/`, drop empty segments, keep only what follows the last
`node_modules` segment, and rejoin a leading `@scope` with the next
segment. -/
def package_name_from_path (path : String) : Option String :=
  if path.data.isEmpty then none
  else
    let segments :=
      ((splitOnChar '/' path.data).map (fun cs => (⟨cs⟩ : String))).filter
        (fun s => ¬ s.data.isEmpty)
    if segments.isEmpty then none
    else
      let segments :=
        match (segments.reverse.findIdx? (· = "node_modules")) with
        | some i => segments.drop (segments.length - i)
        | none => segments
      match segments with
      | [] => none
      | s0 :: rest =>
        if s0.data.head? = some '@' ∧ rest ≠ [] then
          some (s0 ++ "/" ++ rest.headD "")
        else some s0

example : package_name_from_path "node_modules/@types/node" = some "@types/node" := by decide
example : package_name_from_path "node_modules/lodash" = some "lodash" := by decide
example : package_name_from_path "" = none := by decide

/-- `build_package_lock_record` from `scan.rs`. -/
def build_package_lock_record (pkg_path : String) (info : Json)
    (source : List String) (root_json : Json) : Option DependencyRecord :=
  let version := (info.get "version").bind Json.asStr?
  let license := ((info.get "license").bind extract_license).getD "Unknown"
  let name :=
    (((info.get "name").bind Json.asStr?).orElse
      (fun _ => package_name_from_path pkg_path)).orElse
      (fun _ => (root_json.get "name").bind Json.asStr?)
  match name with
  | none => none
  | some name =>
    some { manager := "npm", name, version, license, source, homepage := none }

/-- `lookupField fields key = some v` finds a strict subterm. -/
theorem sizeOf_lookupField {fields : List (String × Json)} {key : String}
    {v : Json} (h : lookupField fields key = some v) :
    sizeOf v < sizeOf fields := by
  induction fields with
  | nil => simp [lookupField] at h
  | cons p t ih =>
    obtain ⟨k, w⟩ := p
    by_cases hk : k = key
    · simp [lookupField, hk] at h
      subst h
      simp
      omega
    · simp [lookupField, hk] at h
      have := ih h
      simp
      omega

/-- `Json.get` finds a strict subterm. -/
theorem sizeOf_json_get {j : Json} {key : String} {v : Json}
    (h : j.get key = some v) : sizeOf v < sizeOf j := by
  cases j <;> simp [Json.get] at h
  case obj fields =>
    have := sizeOf_lookupField h
    simp
    omega

/-- `collect_from_dependencies_map` from `scan.rs`: one record per map
entry, then recursion into the entry's nested `dependencies` object,
flattened in place. -/
def collect_from_dependencies_map (source : List String) :
    List (String × Json) → List DependencyRecord
  | [] => []
  | (name, value) :: rest =>
    let version := (value.get "version").bind Json.asStr?
    let license := ((value.get "license").bind extract_license).getD "Unknown"
    let record : DependencyRecord :=
      { manager := "npm", name, version, license, source, homepage := none }
    let nested :=
      match h : value.get "dependencies" with
      | some (Json.obj inner) => collect_from_dependencies_map source inner
      | _ => []
    record :: (nested ++ collect_from_dependencies_map source rest)
termination_by l => sizeOf l
decreasing_by
  all_goals simp_wf
  all_goals (have h1 := sizeOf_json_get h; simp at h1 ⊢; omega)

/-- `parse_package_lock` from `scan.rs` on an already-decoded JSON
document: the v2/v3 `packages` map takes priority, then the legacy v1
`dependencies` map, else no records. -/
def parse_package_lock (json : Json) (source : List String) :
    List DependencyRecord :=
  match (json.get "packages").bind Json.asObj? with
  | some packages =>
    packages.filterMap (fun p => build_package_lock_record p.1 p.2 source json)
  | none =>
    match (json.get "dependencies").bind Json.asObj? with
    | some deps => collect_from_dependencies_map source deps
    | none => []

/-- `parse_requirements` from `scan.rs` on the file's list of lines. -/
def parse_requirements (lines : List (List Char)) (source : List String) :
    List DependencyRecord :=
  lines.filterMap fun line =>
    (parse_requirement_line line).map fun nv =>
      { manager := "pip", name := ⟨nv.1⟩,
        version := nv.2.map (fun v => (⟨v⟩ : String)),
        license := "Unknown", source := source, homepage := none }

/-! ## License cache (`cache.rs`) -/

/-- Association-list lookup (first binding), modelling `HashMap::get`. -/
def alistLookup {κ ν : Type} [DecidableEq κ] : List (κ × ν) → κ → Option ν
  | [], _ => none
  | (k, v) :: t, key => if k = key then some v else alistLookup t key

/-- Association-list insert-or-replace, modelling `HashMap::insert`. -/
def alistInsert {κ ν : Type} [DecidableEq κ] (key : κ) (v : ν) :
    List (κ × ν) → List (κ × ν)
  | [] => [(key, v)]
  | (k, w) :: t =>
    if k = key then (key, v) :: t else (k, w) :: alistInsert key v t

/-- `CacheData` from `cache.rs` (the JSON cache file's shape). -/
structure CacheData where
  version : Nat
  entries : List (String × PackageMetadata)
deriving DecidableEq, Repr

/-- `CacheData::default()`. -/
def CacheData.default : CacheData := ⟨1, []⟩

/-- `LicenseCache` from `cache.rs`. -/
structure LicenseCache where
  data : CacheData
  dirty : Bool
deriving DecidableEq, Repr

/-- `cache_key` from `cache.rs`: lowercased `manager :: name`
composite. -/
def cache_key (manager name : String) : String :=
  asciiLower manager ++ "::" ++ asciiLower name

/-- `LicenseCache::get`: case-insensitive composite-key lookup. -/
def LicenseCache.get (c : LicenseCache) (manager name : String) :
    Option PackageMetadata :=
  alistLookup c.data.entries (cache_key manager name)

/-- `LicenseCache::insert`: case-insensitive composite-key insert,
marking the cache dirty. -/
def LicenseCache.insert (c : LicenseCache) (manager name : String)
    (metadata : PackageMetadata) : LicenseCache :=
  { data := { c.data with
      entries := alistInsert (cache_key manager name) metadata c.data.entries },
    dirty := true }

/-- `LicenseCache::save`: no-op unless dirty, else serialize the whole
table over the backing file. The disk is modelled as the decoded file
content (`serde_json` round-trips this shape losslessly). -/
def LicenseCache.save (c : LicenseCache) (disk : Option CacheData) :
    Option CacheData × LicenseCache :=
  if c.dirty then (some c.data, { c with dirty := false }) else (disk, c)

/-- `LicenseCache::load` from an existing (or absent) cache file. -/
def LicenseCache.loadFrom (disk : Option CacheData) : LicenseCache :=
  { data := disk.getD CacheData.default, dirty := false }

/-! ## Metadata enrichment (`metadata.rs`) -/

/-- `needs_metadata` from `metadata.rs`. -/
def needs_metadata (record : DependencyRecord) : Bool :=
  record.homepage.isNone || (rustTrim record.license).data.isEmpty
    || eqIgnoreAsciiCase record.license "unknown"

/-- `should_update_license` from `metadata.rs`. -/
def should_update_license (current : String) (candidate : Option String) : Bool :=
  candidate.isSome &&
    ((rustTrim current).data.isEmpty || eqIgnoreAsciiCase current "unknown")

/-- `apply_metadata` from `metadata.rs`. -/
def apply_metadata (record : DependencyRecord) :
    Option PackageMetadata → DependencyRecord
  | none => record
  | some meta =>
    let record :=
      if should_update_license record.license meta.license then
        match meta.license with
        | some license => { record with license := license }
        | none => record
      else record
    if record.homepage.isNone then { record with homepage := meta.homepage }
    else record

/-- `normalize_homepage` from `metadata.rs`: trim whitespace, strip all
trailing `/`; empty result counts as absent. -/
def normalize_homepage (url : String) : Option String :=
  let trimmed := trimL url.data
  if trimmed.isEmpty then none
  else
    let cleaned := ((trimmed.reverse.dropWhile (· = '/')).reverse)
    if cleaned.isEmpty then none else some ⟨cleaned⟩

/-- `normalize_license_text` from `metadata.rs`: trimmed; empty or
case-insensitive `unknown` counts as absent. -/
def normalize_license_text (text : String) : Option String :=
  let trimmed := trimL text.data
  if trimmed.isEmpty then none
  else if eqIgnoreAsciiCase ⟨trimmed⟩ "unknown" then none
  else some ⟨trimmed⟩

/-- Rust `str::contains(pattern)` for a literal pattern. -/
def containsSub (l pat : List Char) : Bool := (findSub l pat).isSome

/-- Rust `str::split("::")` on a character list. -/
def splitColonColon : List Char → List (List Char)
  | [] => [[]]
  | ':' :: ':' :: t => [] :: splitColonColon t
  | c :: t =>
    match splitColonColon t with
    | [] => [[c]]
    | h :: r => (c :: h) :: r

/-- `license_from_classifiers` from `metadata.rs`: for classifiers
containing `License ::`, take the trimmed text after the last `::`;
first non-empty value wins. -/
def license_from_classifiers (classifiers : List String) : Option String :=
  (classifiers.filterMap (fun classifier =>
    if containsSub classifier.data ['L','i','c','e','n','s','e',' ',':',':'] then
      ((splitColonColon classifier.data).getLast?).map
        (fun part => (⟨trimL part⟩ : String))
    else none)).find? (fun value => ¬ value.data.isEmpty)

/-- The decoded `PyPiInfo` payload from `metadata.rs` (`project_urls`
is a map; modelled as an association list in iteration order). -/
structure PyPiInfo where
  license : Option String
  classifiers : Option (List String)
  home_page : Option String
  project_urls : Option (List (String × String))
deriving DecidableEq, Repr

/-- `extract_pypi_homepage` from `metadata.rs`: fixed-priority project
URL keys, then any project URL value, then the legacy homepage field. -/
def extract_pypi_homepage (info : PyPiInfo) : Option String :=
  let fallback := info.home_page.bind normalize_homepage
  match info.project_urls with
  | some urls =>
    let keyHit :=
      (["Homepage", "Home Page", "Source", "Repository", "Documentation"]).findSome?
        (fun key => (alistLookup urls key).bind normalize_homepage)
    match keyHit with
    | some value => some value
    | none =>
      match urls.findSome? (fun p => normalize_homepage p.2) with
      | some url => some url
      | none => fallback
  | none => fallback

/-- What the PyPI endpoint can yield for one package: a transport
error, HTTP 404, another non-2xx status, an unparsable body, or a
decoded `PyPiInfo`. -/
inductive PyPiWire where
  | netErr
  | notFound
  | httpErr
  | badJson
  | ok (info : PyPiInfo)

/-- What the npm registry endpoint can yield for one package. -/
inductive NpmWire where
  | netErr
  | notFound
  | httpErr
  | badJson
  | ok (body : Json)

/-- `fetch_pypi_metadata` from `metadata.rs`, as a function of the
wire response: 404 is a clean negative, other failures are errors, and
a parsed body yields metadata only when license or homepage came out. -/
def fetch_pypi_metadata : PyPiWire → Except Unit (Option PackageMetadata)
  | .netErr => .error ()
  | .notFound => .ok none
  | .httpErr => .error ()
  | .badJson => .error ()
  | .ok info =>
    let license := (info.license.bind normalize_license_text).orElse
      (fun _ => info.classifiers.bind license_from_classifiers)
    let homepage := extract_pypi_homepage info
    if license.isSome || homepage.isSome then
      .ok (some { license := license, homepage := homepage })
    else .ok none

/-- Rust `str::trim_end_matches(".git")`: remove every trailing
occurrence of `.git`. -/
def trimEndGit (l : List Char) : List Char :=
  if h : (['.','g','i','t']).isSuffixOf l ∧ l ≠ [] then
    trimEndGit (l.take (l.length - 4))
  else l
termination_by l.length
decreasing_by
  have hpos : 0 < l.length := List.length_pos.mpr h.2
  simp [List.length_take]
  omega

/-- `normalize_repository_url` from `metadata.rs`: trim, strip a
leading `git+`, strip all trailing `.git`, then homepage
normalization. -/
def normalize_repository_url (url : String) : Option String :=
  let trimmed := trimL url.data
  if trimmed.isEmpty then none
  else
    let cleaned :=
      if (['g','i','t','+']).isPrefixOf trimmed then trimmed.drop 4 else trimmed
    normalize_homepage ⟨trimEndGit cleaned⟩

/-- `extract_npm_repository_url` from `metadata.rs`. -/
def extract_npm_repository_url : Json → Option String
  | .str s => normalize_repository_url s
  | .obj map =>
    ((lookupField map "url").bind Json.asStr?).bind normalize_repository_url
  | _ => none

/-- `extract_npm_homepage` from `metadata.rs`. -/
def extract_npm_homepage (value : Json) : Option String :=
  (((value.get "homepage").bind Json.asStr?).bind normalize_homepage).orElse
    (fun _ => (value.get "repository").bind extract_npm_repository_url)

/-- `lookup_npm_version_metadata` from `metadata.rs`. -/
def lookup_npm_version_metadata (json : Json) (version : String) :
    Option PackageMetadata :=
  match (json.get "versions").bind (fun versions => versions.get version) with
  | none => none
  | some entry =>
    let license := (entry.get "license").bind extract_license
    let homepage := extract_npm_homepage entry
    if license.isNone ∧ homepage.isNone then none
    else some { license := license, homepage := homepage }

/-- `fetch_npm_metadata` from `metadata.rs`, as a function of the wire
response and the record's pinned version. -/
def fetch_npm_metadata : NpmWire → Option String → Except Unit (Option PackageMetadata)
  | .netErr, _ => .error ()
  | .notFound, _ => .ok none
  | .httpErr, _ => .error ()
  | .badJson, _ => .error ()
  | .ok data, version =>
    match version.bind (lookup_npm_version_metadata data) with
    | some metadata => .ok (some metadata)
    | none =>
      let license := (data.get "license").bind extract_license
      let homepage := extract_npm_homepage data
      if license.isSome || homepage.isSome then
        .ok (some { license := license, homepage := homepage })
      else
        match ((data.get "dist-tags").bind (fun tags => tags.get "latest")).bind
            Json.asStr? with
        | some latest =>
          match lookup_npm_version_metadata data latest with
          | some metadata => .ok (some metadata)
          | none => .ok none
        | none => .ok none

/-- The remote registries, as deterministic responders keyed by package
name (a response does not depend on which record asked). -/
structure Registry where
  pypi : String → PyPiWire
  npm : String → NpmWire

/-- The live-fetch dispatch in `enrich_metadata`: `pip` asks PyPI,
`npm` asks the npm registry (passing the pinned version), anything else
is `Ok(None)` without touching the network. -/
def doFetch (reg : Registry) (record : DependencyRecord) :
    Except Unit (Option PackageMetadata) :=
  if record.manager = "pip" then fetch_pypi_metadata (reg.pypi record.name)
  else if record.manager = "npm" then
    fetch_npm_metadata (reg.npm record.name) record.version
  else .ok none

/-- Managers whose dispatch arm performs a network request. -/
def isLiveManager (m : String) : Bool := m == "pip" || m == "npm"

/-- State threaded through one enrichment run: the session memo, the
persistent cache, and the trace of live registry fetches issued (key
and outcome), in order. -/
structure EnrichState where
  session : List ((String × String) × Option PackageMetadata)
  cache : LicenseCache
  events : List ((String × String) × Except Unit (Option PackageMetadata))

/-- One iteration of the `for record in records` loop of
`enrich_metadata`: session memo first, then persistent cache, then a
live fetch whose outcome is memoized (and persisted only when it
produced metadata). -/
def enrichStep (reg : Registry) (st : EnrichState) (record : DependencyRecord) :
    DependencyRecord × EnrichState :=
  if ¬ needs_metadata record then (record, st)
  else
    let key := (record.manager, record.name)
    match alistLookup st.session key with
    | some cached => (apply_metadata record cached, st)
    | none =>
      match st.cache.get record.manager record.name with
      | some m =>
        (apply_metadata record (some m),
         { st with session := alistInsert key (some m) st.session })
      | none =>
        let fetched := doFetch reg record
        let events :=
          if isLiveManager record.manager then st.events ++ [(key, fetched)]
          else st.events
        match fetched with
        | .ok (some metadata) =>
          (apply_metadata record (some metadata),
           { session := alistInsert key (some metadata) st.session,
             cache := st.cache.insert record.manager record.name metadata,
             events := events })
        | .ok none =>
          (record, { st with session := alistInsert key none st.session,
                             events := events })
        | .error _ =>
          (record, { st with session := alistInsert key none st.session,
                             events := events })

/-- The loop of `enrich_metadata`, returning the mutated records and
the final state. -/
def enrichGo (reg : Registry) :
    List DependencyRecord → EnrichState → List DependencyRecord × EnrichState
  | [], st => ([], st)
  | r :: rs, st =>
    let p := enrichStep reg st r
    let q := enrichGo reg rs p.2
    (p.1 :: q.1, q.2)

/-- `enrich_metadata` from `metadata.rs`: start with an empty session
memo and no fetches issued. -/
def enrich_metadata (reg : Registry) (records : List DependencyRecord)
    (cache : LicenseCache) : List DependencyRecord × EnrichState :=
  enrichGo reg records { session := [], cache := cache, events := [] }

/-! ## Pipeline sort (`main.rs`)

`records.sort_by` with the chained comparator
`manager.cmp ... .then(name.cmp ...).then(version.cmp ...).then(source.cmp ...)`.
Rust string ordering is code-point lexicographic; `Option` ordering puts
`None` first; `Path` ordering compares component-wise. `sort_by` is a
stable sort, modelled by `List.mergeSort`. -/

/-- Lexicographic sequence comparison (Rust slice / iterator `cmp`). -/
def listCmp {α : Type} (cmp : α → α → Ordering) : List α → List α → Ordering
  | [], [] => .eq
  | [], _ :: _ => .lt
  | _ :: _, [] => .gt
  | x :: xs, y :: ys => (cmp x y).then (listCmp cmp xs ys)

/-- Rust `char::cmp`: by code point. -/
def charCmp (x y : Char) : Ordering := compare x.toNat y.toNat

/-- Rust `str::cmp`: lexicographic on code points. -/
def charsCmp (a b : List Char) : Ordering := listCmp charCmp a b

/-- `String::cmp`. -/
def strCmp (a b : String) : Ordering := charsCmp a.data b.data

/-- `Option::cmp` (derived): `None` sorts before any `Some`. -/
def optionCmp {α : Type} (cmp : α → α → Ordering) :
    Option α → Option α → Ordering
  | none, none => .eq
  | none, some _ => .lt
  | some _, none => .gt
  | some a, some b => cmp a b

/-- `Path::cmp`: component-wise lexicographic comparison. -/
def pathCmp (a b : List String) : Ordering := listCmp strCmp a b

/-- The record comparator of `main.rs`:
`(manager, name, version, source)` ascending. -/
def recordCmp (a b : DependencyRecord) : Ordering :=
  (strCmp a.manager b.manager).then
    ((strCmp a.name b.name).then
      ((optionCmp strCmp a.version b.version).then (pathCmp a.source b.source)))

/-- `a` may precede `b` under the comparator. -/
def recordLe (a b : DependencyRecord) : Bool :=
  decide (recordCmp a b ≠ Ordering.gt)

/-- The pipeline's `records.sort_by(...)` (a stable sort). -/
def sortRecords (records : List DependencyRecord) : List DependencyRecord :=
  records.mergeSort recordLe

/-- The display form of a `source` path (Unix `Path::display`):
components joined by `/`. -/
def pathString (p : List String) : String := String.intercalate "/" p

/-! ## Filesystem scanner (`scan.rs::collect_records`)

The directory tree is modelled as an inductive; file contents carry the
decoded payload the matching parser would read (`lock none` stands for
a `package-lock.json` whose JSON fails to parse, which is fatal). -/

/-- Content of a file in the modelled tree. -/
inductive FileContent where
  | reqs (lines : List (List Char))
  | lock (json : Option Json)
  | other

/-- A directory tree. -/
inductive FsTree where
  | file (name : String) (content : FileContent)
  | dir (name : String) (children : List FsTree)

/-- The case-insensitive denylist check of `collect_records`'
`filter_entry` closure. -/
def excludedName (name : String) : Bool :=
  let n := asciiLower name
  n == "node_modules" || n == ".git" || n == "target" ||
    n == "__pycache__" || n == "venv" || n == ".venv"

/-- The whole `filter_entry` predicate: the root (depth 0) is always
kept; any deeper entry is kept iff its depth is at most 64 and its name
is not denylisted. -/
def keepEntry (depth : Nat) (name : String) : Bool :=
  if depth = 0 then true
  else decide (depth ≤ 64) && ! excludedName name

mutual

/-- Walk one entry of the tree (`WalkDir` visit at the given depth;
`pathAbove` is the path of the containing directory, the root sitting
at `[]`). Files matched by name are parsed; a pruned entry contributes
nothing and is never descended into. -/
def collectEntry : FsTree → Nat → List String → Except Unit (List DependencyRecord)
  | .file name content, depth, pathAbove =>
    if keepEntry depth name then
      let source := pathAbove ++ [name]
      match name, content with
      | "requirements.txt", .reqs lines => .ok (parse_requirements lines source)
      | "package-lock.json", .lock (some j) => .ok (parse_package_lock j source)
      | "package-lock.json", .lock none => .error ()
      | _, _ => .ok []
    else .ok []
  | .dir name children, depth, pathAbove =>
    if keepEntry depth name then
      collectChildren children (depth + 1) (pathAbove ++ [name])
    else .ok []

/-- Walk a directory's children in order, concatenating their records;
the first fatal parse error aborts the scan (the `?` propagation in the
`for entry in walker` loop). -/
def collectChildren : List FsTree → Nat → List String → Except Unit (List DependencyRecord)
  | [], _, _ => .ok []
  | t :: ts, depth, path =>
    match collectEntry t depth path with
    | .error e => .error e
    | .ok r =>
      match collectChildren ts depth path with
      | .error e => .error e
      | .ok rs => .ok (r ++ rs)

end

/-- `collect_records` from `scan.rs` over a modelled tree rooted at an
existing path. -/
def collect_records (root : FsTree) : Except Unit (List DependencyRecord) :=
  collectEntry root 0 []

/-! ## Association-list lemmas -/

theorem alistLookup_insert_self {κ ν : Type} [DecidableEq κ]
    (l : List (κ × ν)) (k : κ) (v : ν) :
    alistLookup (alistInsert k v l) k = some v := by
  induction l with
  | nil => simp [alistInsert, alistLookup]
  | cons p t ih =>
    obtain ⟨k', w⟩ := p
    by_cases h : k' = k <;> simp [alistInsert, alistLookup, h, ih]

theorem alistLookup_insert_ne {κ ν : Type} [DecidableEq κ]
    (l : List (κ × ν)) (k k' : κ) (v : ν) (h : k' ≠ k) :
    alistLookup (alistInsert k v l) k' = alistLookup l k' := by
  induction l with
  | nil => simp [alistInsert, alistLookup, Ne.symm h]
  | cons p t ih =>
    obtain ⟨k'', w⟩ := p
    by_cases h2 : k'' = k
    · subst h2
      simp [alistInsert, alistLookup, Ne.symm h]
    · simp [alistInsert, alistLookup, h2, ih]

/-! ## Merge policy (`apply_metadata`) -/

theorem apply_metadata_license_eq (record : DependencyRecord)
    (meta : PackageMetadata) :
    (apply_metadata record (some meta)).license =
      if should_update_license record.license meta.license then
        meta.license.getD record.license
      else record.license := by
  simp only [apply_metadata]
  cases hml : meta.license with
  | none => split <;> split <;> simp [hml]
  | some l => split <;> split <;> simp [hml]

theorem apply_metadata_homepage_eq (record : DependencyRecord)
    (meta : PackageMetadata) :
    (apply_metadata record (some meta)).homepage =
      if record.homepage.isNone then meta.homepage else record.homepage := by
  simp only [apply_metadata]
  cases hml : meta.license with
  | none => split <;> split <;> simp_all
  | some l => split <;> split <;> simp_all

/-- Claim C2: a metadata value is merged into a record only
conservatively. The license changes only when a candidate license is
present and the current one is blank or case-insensitively `unknown`;
the homepage changes only when currently absent; applying no metadata
changes nothing; and a record already carrying `"MIT"` keeps it when
the metadata has `license = None`. -/
theorem C2_merge_policy (record : DependencyRecord) (meta : PackageMetadata) :
    ((apply_metadata record (some meta)).license ≠ record.license →
      meta.license.isSome = true ∧
        ((rustTrim record.license).data.isEmpty = true ∨
          eqIgnoreAsciiCase record.license "unknown" = true)) ∧
    ((apply_metadata record (some meta)).homepage ≠ record.homepage →
      record.homepage = none) ∧
    (apply_metadata record none = record) ∧
    (record.license = "MIT" → meta.license = none →
      (apply_metadata record (some meta)).license = "MIT") := by
  refine ⟨?_, ?_, rfl, ?_⟩
  · intro hne
    rw [apply_metadata_license_eq] at hne
    by_cases hs : should_update_license record.license meta.license = true
    · unfold should_update_license at hs
      rw [Bool.and_eq_true, Bool.or_eq_true] at hs
      exact ⟨hs.1, hs.2⟩
    · simp [hs] at hne
  · intro hne
    rw [apply_metadata_homepage_eq] at hne
    by_cases h : record.homepage.isNone
    · exact Option.isNone_iff_eq_none.mp h
    · simp [h] at hne
  · intro hlic hnone
    rw [apply_metadata_license_eq, hlic]
    simp [should_update_license, hnone]

/-- Concrete instance of `C2_merge_policy`: a pip record with license
`MIT` keeps it when the fetched metadata carries no license. -/
theorem C2_merge_policy_witness :
    (apply_metadata
      { manager := "pip", name := "requests", version := some "2.32.0",
        license := "MIT", source := ["proj", "requirements.txt"],
        homepage := none }
      (some { license := none, homepage := some "https://example.org" })).license
      = "MIT" :=
  (C2_merge_policy _ _).2.2.2 rfl rfl

/-! ## Cache round-trip (Claim C8) -/

/-- Claim C8: cache keys are case-insensitive composites of manager and
name: inserting metadata, saving the cache to disk, reloading it, and
querying under any ASCII casing of the same manager and name returns
that metadata. -/
theorem C8_cache_roundtrip (c : LicenseCache) (disk : Option CacheData)
    (manager name manager2 name2 : String) (meta : PackageMetadata)
    (hm : asciiLower manager2 = asciiLower manager)
    (hn : asciiLower name2 = asciiLower name) :
    (LicenseCache.loadFrom ((c.insert manager name meta).save disk).1).get
      manager2 name2 = some meta := by
  have hkey : cache_key manager2 name2 = cache_key manager name := by
    simp [cache_key, hm, hn]
  simp [LicenseCache.insert, LicenseCache.save, LicenseCache.loadFrom,
    LicenseCache.get, hkey]
  exact alistLookup_insert_self ..

/-- Concrete instance of `C8_cache_roundtrip`: insert as
`("npm", "Left-Pad")`, reload, query as `("NPM", "left-pad")`. -/
theorem C8_cache_roundtrip_witness :
    (LicenseCache.loadFrom
      ((LicenseCache.insert ⟨⟨1, []⟩, false⟩ "npm" "Left-Pad"
        ⟨some "MIT", none⟩).save none).1).get "NPM" "left-pad" =
      some ⟨some "MIT", none⟩ :=
  C8_cache_roundtrip ⟨⟨1, []⟩, false⟩ none "npm" "Left-Pad" "NPM" "left-pad"
    ⟨some "MIT", none⟩ (by decide) (by decide)

/-! ## License extraction agrees with the spec (Claim C5) -/

mutual

/-- Spec side of claim C5, transcribed from §4.4 of the spec: a plain
string is used as-is; an array recursively extracts each element and
joins the non-empty (present) results with `", "`, an empty result set
yielding no license; an object with a `type` field yields that field's
string value; any other shape yields no license. -/
def extract_license_spec : Json → Option String
  | .str s => some s
  | .arr elements =>
    let results := extractLicenseSpecList elements
    if results = [] then none else some (String.intercalate ", " results)
  | .obj fields =>
    match lookupField fields "type" with
    | some (.str s) => some s
    | _ => none
  | _ => none

/-- The present results of extracting each array element, in order. -/
def extractLicenseSpecList : List Json → List String
  | [] => []
  | v :: vs =>
    match extract_license_spec v with
    | some s => s :: extractLicenseSpecList vs
    | none => extractLicenseSpecList vs

end

theorem extractLicenseList_congr (l : List Json)
    (h : ∀ v ∈ l, extract_license v = extract_license_spec v) :
    extractLicenseList l = extractLicenseSpecList l := by
  induction l with
  | nil => rfl
  | cons v vs ih =>
    simp only [extractLicenseList, extractLicenseSpecList]
    rw [h v (by simp)]
    cases extract_license_spec v <;>
      simp [ih (fun w hw => h w (by simp [hw]))]

theorem extract_license_eq_spec (j : Json) :
    extract_license j = extract_license_spec j := by
  have H : ∀ n (j : Json), sizeOf j ≤ n →
      extract_license j = extract_license_spec j := by
    intro n
    induction n with
    | zero => intro j hj; cases j <;> simp at hj
    | succ n ih =>
      intro j hj
      cases j with
      | null => rfl
      | bool b => rfl
      | num => rfl
      | str s => rfl
      | arr elements =>
        simp only [extract_license, extract_license_spec]
        have hcong : extractLicenseList elements = extractLicenseSpecList elements := by
          apply extractLicenseList_congr
          intro v hv
          apply ih
          have h1 : sizeOf v < sizeOf elements := List.sizeOf_lt_of_mem hv
          have h2 : sizeOf (Json.arr elements) = 1 + sizeOf elements := by simp
          omega
        rw [hcong]
        cases extractLicenseSpecList elements <;> simp
      | obj fields =>
        simp only [extract_license, extract_license_spec]
        cases hf : lookupField fields "type" with
        | none => rfl
        | some v => cases v <;> rfl
  exact H (sizeOf j) j (le_refl _)

/-- Claim C5: the shared license-field extraction behaves exactly as
specified — agreement with the spec-transcribed `extract_license_spec`
on every JSON value, plus the spec's concrete examples:
`["MIT", "Apache-2.0"]` gives `"MIT, Apache-2.0"`, `{"type": "ISC"}`
gives `"ISC"`, and `null` gives no license. -/
theorem C5_extract_license_shape :
    (∀ j : Json, extract_license j = extract_license_spec j) ∧
    extract_license (.arr [.str "MIT", .str "Apache-2.0"]) =
      some "MIT, Apache-2.0" ∧
    extract_license (.obj [("type", .str "ISC")]) = some "ISC" ∧
    extract_license .null = none :=
  ⟨extract_license_eq_spec, by decide, by decide, rfl⟩

/-! ## Enrichment fetch deduplication (Claim C3) -/

/-- Number of live-fetch events issued for a given key. -/
def countKey
    (events : List ((String × String) × Except Unit (Option PackageMetadata)))
    (k : String × String) : Nat :=
  events.countP (fun e => decide (e.1 = k))

/-- The key has been resolved in the session memo. -/
def sessionHas (st : EnrichState) (k : String × String) : Prop :=
  (alistLookup st.session k).isSome = true

/-- Run invariant: every key has been live-fetched at most once, and a
fetched key sits in the session memo. -/
def FetchInv (st : EnrichState) : Prop :=
  ∀ k, countKey st.events k ≤ 1 ∧ (1 ≤ countKey st.events k → sessionHas st k)

theorem alistLookup_insert_isSome {κ ν : Type} [DecidableEq κ]
    (l : List (κ × ν)) (k k' : κ) (v : ν)
    (h : (alistLookup l k').isSome = true) :
    (alistLookup (alistInsert k v l) k').isSome = true := by
  by_cases hk : k' = k
  · subst hk
    rw [alistLookup_insert_self]
    rfl
  · rwa [alistLookup_insert_ne _ _ _ _ hk]

/-- Extending the state at an unresolved key (session-memo insert, any
cache update, optionally one fetch event for that key) preserves the
invariant. -/
theorem fetchInv_extend (st : EnrichState) (key : String × String)
    (val : Option PackageMetadata) (cache' : LicenseCache)
    (events' : List ((String × String) × Except Unit (Option PackageMetadata)))
    (h : FetchInv st) (hnone : alistLookup st.session key = none)
    (hev : events' = st.events ∨
      ∃ fetched, events' = st.events ++ [(key, fetched)]) :
    FetchInv { session := alistInsert key val st.session,
               cache := cache', events := events' } := by
  intro k
  by_cases hk : k = key
  · subst hk
    have hzero : countKey st.events k = 0 := by
      by_contra hnz
      have h1 : 1 ≤ countKey st.events k := Nat.one_le_iff_ne_zero.mpr hnz
      have h2 := (h k).2 h1
      unfold sessionHas at h2
      rw [hnone] at h2
      simp at h2
    constructor
    · rcases hev with heq | ⟨fetched, heq⟩
      · subst heq
        exact le_trans (le_of_eq hzero) (by omega)
      · subst heq
        simp only [countKey, List.countP_append] at hzero ⊢
        have hone :
            List.countP (fun e => decide (e.1 = k)) [(k, fetched)] ≤ 1 := by
          simp [List.countP_cons]
        omega
    · intro _
      unfold sessionHas
      rw [alistLookup_insert_self]
      rfl
  · have hcnt : countKey events' k = countKey st.events k := by
      rcases hev with heq | ⟨fetched, heq⟩
      · rw [heq]
      · subst heq
        simp [countKey, List.countP_append, List.countP_cons, Ne.symm hk]
    constructor
    · rw [hcnt]
      exact (h k).1
    · intro hge
      rw [hcnt] at hge
      have h2 := (h k).2 hge
      unfold sessionHas at h2 ⊢
      rwa [alistLookup_insert_ne _ _ _ _ hk]

theorem enrichStep_inv (reg : Registry) (st : EnrichState)
    (r : DependencyRecord) (h : FetchInv st) :
    FetchInv (enrichStep reg st r).2 := by
  unfold enrichStep
  by_cases hneed : needs_metadata r = true
  · simp only [hneed, not_true_eq_false, if_false]
    cases hs : alistLookup st.session (r.manager, r.name) with
    | some cached => exact h
    | none =>
      have hev : ∀ fetched,
          (if isLiveManager r.manager then st.events ++ [((r.manager, r.name), fetched)]
           else st.events) = st.events ∨
          ∃ f, (if isLiveManager r.manager then
                  st.events ++ [((r.manager, r.name), fetched)]
                else st.events) = st.events ++ [((r.manager, r.name), f)] := by
        intro fetched
        by_cases hl : isLiveManager r.manager = true
        · exact Or.inr ⟨fetched, by simp [hl]⟩
        · exact Or.inl (by simp [hl])
      cases hc : LicenseCache.get st.cache r.manager r.name with
      | some m =>
        simpa using
          fetchInv_extend st (r.manager, r.name) (some m) st.cache st.events
            h hs (Or.inl rfl)
      | none =>
        cases hf : doFetch reg r with
        | ok o =>
          cases o with
          | some metadata =>
            simpa using
              fetchInv_extend st (r.manager, r.name) (some metadata)
                (st.cache.insert r.manager r.name metadata) _
                h hs (hev (.ok (some metadata)))
          | none =>
            simpa using
              fetchInv_extend st (r.manager, r.name) none st.cache _
                h hs (hev (.ok none))
        | error e =>
          simpa using
            fetchInv_extend st (r.manager, r.name) none st.cache _
              h hs (hev (.error e))
  · simp only [hneed]
    simpa using h

theorem enrichGo_cons (reg : Registry) (r : DependencyRecord)
    (rs : List DependencyRecord) (st : EnrichState) :
    enrichGo reg (r :: rs) st =
      ((enrichStep reg st r).1 :: (enrichGo reg rs (enrichStep reg st r).2).1,
       (enrichGo reg rs (enrichStep reg st r).2).2) := rfl

theorem enrichGo_inv (reg : Registry) (records : List DependencyRecord)
    (st : EnrichState) (h : FetchInv st) :
    FetchInv (enrichGo reg records st).2 := by
  induction records generalizing st with
  | nil => exact h
  | cons r rs ih =>
    rw [enrichGo_cons]
    exact ih (enrichStep reg st r).2 (enrichStep_inv reg st r h)

/-- Claim C3: within one enrichment run over any record sequence, at
most one live registry fetch is issued per (manager, name) key — every
later record with the same key is resolved from the session memo or
the persistent cache without a further network request. -/
theorem C3_single_fetch_per_key (reg : Registry)
    (records : List DependencyRecord) (cache : LicenseCache)
    (k : String × String) :
    countKey (enrich_metadata reg records cache).2.events k ≤ 1 := by
  have hinit : FetchInv { session := [], cache := cache, events := [] } := by
    intro k
    refine ⟨by simp [countKey], fun hge => ?_⟩
    simp [countKey] at hge
  exact ((enrichGo_inv reg records _ hinit) k).1

/-! ## Session memo is exact-case, persistent cache is lowercased
(Claim C10) -/

/-- Claim C10: the session memo is keyed by the exact (manager, name)
strings while the persistent cache key is lowercased; hence two records
whose names differ only in ASCII case, when the first fetch yields no
persistable metadata (404 or failure) and the persistent cache has no
entry for the shared lowercased key, each trigger their own live fetch
in one run. -/
theorem C10_exact_case_double_fetch (reg : Registry) (c0 : LicenseCache)
    (r1 r2 : DependencyRecord)
    (hmgr : r1.manager = r2.manager)
    (hlive : isLiveManager r1.manager = true)
    (hname : r1.name ≠ r2.name)
    (hlow : asciiLower r1.name = asciiLower r2.name)
    (h1 : needs_metadata r1 = true) (h2 : needs_metadata r2 = true)
    (hc : c0.get r1.manager r1.name = none)
    (hneg : doFetch reg r1 = .ok none ∨ ∃ e, doFetch reg r1 = .error e) :
    ((enrich_metadata reg [r1, r2] c0).2.events).map (fun e => e.1) =
      [(r1.manager, r1.name), (r2.manager, r2.name)] := by
  have hlive2 : isLiveManager r2.manager = true := hmgr ▸ hlive
  have hkne : ((r1.manager, r1.name) : String × String) ≠ (r2.manager, r2.name) :=
    fun hEq => hname (congrArg Prod.snd hEq)
  have hck : cache_key r2.manager r2.name = cache_key r1.manager r1.name := by
    unfold cache_key
    rw [← hmgr, ← hlow]
  have hc2 : c0.get r2.manager r2.name = none := by
    unfold LicenseCache.get at hc ⊢
    rw [hck]
    exact hc
  have hst1 : (enrichStep reg { session := [], cache := c0, events := [] } r1).2 =
      { session := [((r1.manager, r1.name), none)], cache := c0,
        events := [((r1.manager, r1.name), doFetch reg r1)] } := by
    rcases hneg with hno | ⟨e, herr⟩
    · unfold enrichStep
      simp [h1, alistLookup, hc, hno, hlive, alistInsert]
    · unfold enrichStep
      simp [h1, alistLookup, hc, herr, hlive, alistInsert]
  set st1 : EnrichState :=
    { session := [((r1.manager, r1.name), none)], cache := c0,
      events := [((r1.manager, r1.name), doFetch reg r1)] } with hst1def
  have hev2 : (enrichStep reg st1 r2).2.events =
      st1.events ++ [((r2.manager, r2.name), doFetch reg r2)] := by
    unfold enrichStep
    have hsess : alistLookup st1.session (r2.manager, r2.name) = none := by
      simp [hst1def, alistLookup, hkne]
    simp only [h2, not_true_eq_false, if_false, hsess, hc2]
    cases hdf : doFetch reg r2 with
    | ok o => cases o <;> simp [hlive2]
    | error e => simp [hlive2]
  have hfinal : (enrich_metadata reg [r1, r2] c0).2 = (enrichStep reg st1 r2).2 := by
    unfold enrich_metadata
    rw [enrichGo_cons, enrichGo_cons, hst1]
    rfl
  rw [hfinal, hev2, hst1def]
  simp

/-- Concrete instance of `C10_exact_case_double_fetch`: pip records
named `Foo` and `foo` against a registry answering 404 each trigger a
fetch. -/
theorem C10_exact_case_double_fetch_witness :
    ((enrich_metadata
      { pypi := fun _ => PyPiWire.notFound, npm := fun _ => NpmWire.notFound }
      [{ manager := "pip", name := "Foo", version := none,
         license := "Unknown", source := [], homepage := none },
       { manager := "pip", name := "foo", version := none,
         license := "Unknown", source := [], homepage := none }]
      ⟨⟨1, []⟩, false⟩).2.events).map (fun e => e.1) =
      [("pip", "Foo"), ("pip", "foo")] :=
  C10_exact_case_double_fetch _ _ _ _ rfl (by decide) (by decide) (by decide)
    (by decide) (by decide) (by decide) (Or.inl rfl)

/-! ## Fetch outcomes and cache persistence (Claim C7) -/

theorem lookup_npm_version_nonempty (json : Json) (version : String)
    (m : PackageMetadata) (h : lookup_npm_version_metadata json version = some m) :
    m.license.isSome = true ∨ m.homepage.isSome = true := by
  unfold lookup_npm_version_metadata at h
  cases he : (json.get "versions").bind (fun versions => versions.get version) with
  | none => rw [he] at h; simp at h
  | some entry =>
    rw [he] at h
    simp only at h
    split at h
    · simp at h
    · rename_i hcond
      injection h with h'
      subst h'
      cases hl : (entry.get "license").bind extract_license with
      | some s => simp [hl]
      | none =>
        cases hh : extract_npm_homepage entry with
        | some s => simp [hh]
        | none => exact absurd ⟨by simp [hl], by simp [hh]⟩ hcond

theorem fetch_pypi_okSome (w : PyPiWire) (m : PackageMetadata)
    (h : fetch_pypi_metadata w = .ok (some m)) :
    m.license.isSome = true ∨ m.homepage.isSome = true := by
  cases w with
  | netErr => simp [fetch_pypi_metadata] at h
  | notFound => simp [fetch_pypi_metadata] at h
  | httpErr => simp [fetch_pypi_metadata] at h
  | badJson => simp [fetch_pypi_metadata] at h
  | ok info =>
    simp only [fetch_pypi_metadata] at h
    split at h
    · rename_i hcond
      injection h with h'
      injection h' with h''
      subst h''
      simpa using Bool.or_eq_true_iff.mp hcond
    · simp at h

theorem fetch_npm_okSome (w : NpmWire) (v : Option String) (m : PackageMetadata)
    (h : fetch_npm_metadata w v = .ok (some m)) :
    m.license.isSome = true ∨ m.homepage.isSome = true := by
  cases w with
  | netErr => simp [fetch_npm_metadata] at h
  | notFound => simp [fetch_npm_metadata] at h
  | httpErr => simp [fetch_npm_metadata] at h
  | badJson => simp [fetch_npm_metadata] at h
  | ok body =>
    simp only [fetch_npm_metadata] at h
    cases hv : v.bind (lookup_npm_version_metadata body) with
    | some md =>
      rw [hv] at h
      simp only at h
      injection h with h'
      injection h' with h''
      obtain ⟨a, ha, hla⟩ := Option.bind_eq_some.mp hv
      exact h'' ▸ lookup_npm_version_nonempty body a md hla
    | none =>
      rw [hv] at h
      simp only at h
      split at h
      · rename_i hcond
        injection h with h'
        injection h' with h''
        subst h''
        simpa using Bool.or_eq_true_iff.mp hcond
      · cases hl : ((body.get "dist-tags").bind (fun tags => tags.get "latest")).bind
            Json.asStr? with
        | none => rw [hl] at h; simp at h
        | some latest =>
          rw [hl] at h
          simp only at h
          cases hm2 : lookup_npm_version_metadata body latest with
          | none => rw [hm2] at h; simp at h
          | some md =>
            rw [hm2] at h
            injection h with h'
            injection h' with h''
            exact h'' ▸ lookup_npm_version_nonempty body latest md hm2

theorem doFetch_okSome (reg : Registry) (r : DependencyRecord)
    (m : PackageMetadata) (h : doFetch reg r = .ok (some m)) :
    m.license.isSome = true ∨ m.homepage.isSome = true := by
  unfold doFetch at h
  by_cases hp : r.manager = "pip"
  · rw [if_pos hp] at h
    exact fetch_pypi_okSome _ _ h
  · rw [if_neg hp] at h
    by_cases hn : r.manager = "npm"
    · rw [if_pos hn] at h
      exact fetch_npm_okSome _ _ _ h
    · rw [if_neg hn] at h
      simp at h

theorem doFetch_okSome_live (reg : Registry) (r : DependencyRecord)
    (m : PackageMetadata) (h : doFetch reg r = .ok (some m)) :
    isLiveManager r.manager = true := by
  unfold doFetch at h
  by_cases hp : r.manager = "pip"
  · simp [isLiveManager, hp]
  · by_cases hn : r.manager = "npm"
    · simp [isLiveManager, hn]
    · rw [if_neg hp, if_neg hn] at h
      simp at h

/-- Every entry of the cache is either inherited from the starting
cache or carries at least one of license/homepage. -/
def CacheGood (c0 c : LicenseCache) : Prop :=
  ∀ key meta, alistLookup c.data.entries key = some meta →
    alistLookup c0.data.entries key = some meta ∨
      (meta.license.isSome = true ∨ meta.homepage.isSome = true)

/-- If no fetch event produced metadata, the cache is untouched. -/
def NoFetchNoMutate (c0 : LicenseCache) (st : EnrichState) : Prop :=
  (∀ ev ∈ st.events, ∀ m, ev.2 ≠ Except.ok (some m)) → st.cache = c0

theorem enrichStep_cacheGood (reg : Registry) (st : EnrichState)
    (r : DependencyRecord) (c0 : LicenseCache) (h : CacheGood c0 st.cache) :
    CacheGood c0 (enrichStep reg st r).2.cache := by
  unfold enrichStep
  by_cases hneed : needs_metadata r = true
  · simp only [hneed, not_true_eq_false, if_false]
    cases hs : alistLookup st.session (r.manager, r.name) with
    | some cached => exact h
    | none =>
      cases hc : LicenseCache.get st.cache r.manager r.name with
      | some m => simpa using h
      | none =>
        cases hf : doFetch reg r with
        | ok o =>
          cases o with
          | some metadata =>
            intro key meta hlook
            simp only [LicenseCache.insert] at hlook
            by_cases hk : key = cache_key r.manager r.name
            · subst hk
              rw [alistLookup_insert_self] at hlook
              injection hlook with h'
              exact Or.inr (h' ▸ doFetch_okSome reg r metadata hf)
            · rw [alistLookup_insert_ne _ _ _ _ hk] at hlook
              exact h key meta hlook
          | none => simpa using h
        | error e => simpa using h
  · simp only [hneed]
    simpa using h

theorem enrichStep_noMutate (reg : Registry) (st : EnrichState)
    (r : DependencyRecord) (c0 : LicenseCache) (h : NoFetchNoMutate c0 st) :
    NoFetchNoMutate c0 (enrichStep reg st r).2 := by
  unfold enrichStep
  by_cases hneed : needs_metadata r = true
  · simp only [hneed, not_true_eq_false, if_false]
    cases hs : alistLookup st.session (r.manager, r.name) with
    | some cached => exact h
    | none =>
      cases hc : LicenseCache.get st.cache r.manager r.name with
      | some m => intro hno; exact h hno
      | none =>
        cases hf : doFetch reg r with
        | ok o =>
          cases o with
          | some metadata =>
            intro hno
            exfalso
            have hlive := doFetch_okSome_live reg r metadata hf
            refine hno ((r.manager, r.name), Except.ok (some metadata)) ?_ metadata rfl
            simp [hlive]
          | none =>
            intro hno
            apply h
            intro ev hev m
            apply hno ev
            by_cases hl : isLiveManager r.manager = true <;>
              simp [hl, List.mem_append, hev]
        | error e =>
          intro hno
          apply h
          intro ev hev m
          apply hno ev
          by_cases hl : isLiveManager r.manager = true <;>
            simp [hl, List.mem_append, hev]
  · simp only [hneed]
    intro hno
    exact h (by simpa using hno)

theorem enrichGo_cacheGood (reg : Registry) (records : List DependencyRecord)
    (st : EnrichState) (c0 : LicenseCache) (h : CacheGood c0 st.cache) :
    CacheGood c0 (enrichGo reg records st).2.cache := by
  induction records generalizing st with
  | nil => exact h
  | cons r rs ih =>
    rw [enrichGo_cons]
    exact ih (enrichStep reg st r).2 (enrichStep_cacheGood reg st r c0 h)

theorem enrichGo_noMutate (reg : Registry) (records : List DependencyRecord)
    (st : EnrichState) (c0 : LicenseCache) (h : NoFetchNoMutate c0 st) :
    NoFetchNoMutate c0 (enrichGo reg records st).2 := by
  induction records generalizing st with
  | nil => exact h
  | cons r rs ih =>
    rw [enrichGo_cons]
    exact ih (enrichStep reg st r).2 (enrichStep_noMutate reg st r c0 h)

/-- Claim C7: a registry 404 is a clean negative (`Ok(None)`, not an
error) for both registries; a successful response carrying neither
license nor homepage is treated identically; metadata is produced only
when at least one of license/homepage is present; and the persistent
cache is mutated only by metadata-producing fetches — a run whose
fetch events all failed or came back negative leaves the cache exactly
as it started, and every cache entry is inherited or metadata-bearing. -/
theorem C7_negative_results_session_only (reg : Registry)
    (records : List DependencyRecord) (c0 : LicenseCache) :
    (fetch_pypi_metadata PyPiWire.notFound = .ok none) ∧
    (∀ v, fetch_npm_metadata NpmWire.notFound v = .ok none) ∧
    (∀ r m, doFetch reg r = .ok (some m) →
      m.license.isSome = true ∨ m.homepage.isSome = true) ∧
    (∀ info, fetch_pypi_metadata (PyPiWire.ok info) = .ok none ∨
      ∃ m, fetch_pypi_metadata (PyPiWire.ok info) = .ok (some m) ∧
        (m.license.isSome = true ∨ m.homepage.isSome = true)) ∧
    (∀ body v, fetch_npm_metadata (NpmWire.ok body) v = .ok none ∨
      ∃ m, fetch_npm_metadata (NpmWire.ok body) v = .ok (some m) ∧
        (m.license.isSome = true ∨ m.homepage.isSome = true)) ∧
    ((∀ ev ∈ (enrich_metadata reg records c0).2.events, ∀ m,
        ev.2 ≠ Except.ok (some m)) →
      (enrich_metadata reg records c0).2.cache = c0) ∧
    (∀ key meta,
      alistLookup (enrich_metadata reg records c0).2.cache.data.entries key =
        some meta →
      alistLookup c0.data.entries key = some meta ∨
        (meta.license.isSome = true ∨ meta.homepage.isSome = true)) := by
  refine ⟨rfl, fun v => rfl, fun r m h => doFetch_okSome reg r m h, ?_, ?_, ?_, ?_⟩
  · intro info
    cases hres : fetch_pypi_metadata (PyPiWire.ok info) with
    | error e =>
      exfalso
      simp only [fetch_pypi_metadata] at hres
      split at hres <;> simp at hres
    | ok o =>
      cases o with
      | none => exact Or.inl rfl
      | some m => exact Or.inr ⟨m, rfl, fetch_pypi_okSome _ _ hres⟩
  · intro body v
    cases hres : fetch_npm_metadata (NpmWire.ok body) v with
    | error e =>
      exfalso
      simp only [fetch_npm_metadata] at hres
      cases hv : v.bind (lookup_npm_version_metadata body) with
      | some md => rw [hv] at hres; simp at hres
      | none =>
        rw [hv] at hres
        simp only at hres
        split at hres
        · simp at hres
        · cases hl : ((body.get "dist-tags").bind (fun tags => tags.get "latest")).bind
              Json.asStr? with
          | none => rw [hl] at hres; simp at hres
          | some latest =>
            rw [hl] at hres
            simp only at hres
            cases hm2 : lookup_npm_version_metadata body latest with
            | none => rw [hm2] at hres; simp at hres
            | some md => rw [hm2] at hres; simp at hres
    | ok o =>
      cases o with
      | none => exact Or.inl rfl
      | some m => exact Or.inr ⟨m, rfl, fetch_npm_okSome _ _ _ hres⟩
  · exact enrichGo_noMutate reg records _ c0 (fun _ => rfl)
  · exact enrichGo_cacheGood reg records _ c0 (fun key meta h => Or.inl h)

/-- Concrete instance of `C7_negative_results_session_only`: a PyPI
body carrying license `MIT` produces metadata with a license present. -/
theorem C7_negative_results_session_only_witness :
    doFetch
      { pypi := fun _ => PyPiWire.ok
          { license := some "MIT", classifiers := none,
            home_page := none, project_urls := none },
        npm := fun _ => NpmWire.notFound }
      { manager := "pip", name := "requests", version := none,
        license := "Unknown", source := [], homepage := none } =
      .ok (some { license := some "MIT", homepage := none }) ∧
    (({ license := some "MIT", homepage := none } : PackageMetadata).license.isSome = true ∨
      ({ license := some "MIT", homepage := none } : PackageMetadata).homepage.isSome = true) :=
  ⟨rfl,
   (C7_negative_results_session_only
     { pypi := fun _ => PyPiWire.ok
         { license := some "MIT", classifiers := none,
           home_page := none, project_urls := none },
       npm := fun _ => NpmWire.notFound } [] ⟨⟨1, []⟩, false⟩).2.2.1
     { manager := "pip", name := "requests", version := none,
       license := "Unknown", source := [], homepage := none }
     { license := some "MIT", homepage := none } rfl⟩

/-! ## The license non-emptiness invariant (Claim C1) -/

theorem build_package_lock_record_license (pkg_path : String) (info : Json)
    (source : List String) (root_json : Json) (r : DependencyRecord)
    (h : build_package_lock_record pkg_path info source root_json = some r) :
    r.license = ((info.get "license").bind extract_license).getD "Unknown" := by
  unfold build_package_lock_record at h
  simp only at h
  split at h
  · exact Option.noConfusion h
  · injection h with h'
    rw [← h']

theorem collect_deps_license (n : Nat) :
    ∀ (source : List String) (map : List (String × Json)), sizeOf map ≤ n →
      ∀ r ∈ collect_from_dependencies_map source map,
        r.license = "Unknown" ∨ ∃ v, extract_license v = some r.license := by
  induction n with
  | zero =>
    intro source map h
    cases map <;> simp at h
  | succ n ih =>
    intro source map hle r hr
    match map with
    | [] => simp [collect_from_dependencies_map] at hr
    | (name, value) :: rest =>
      unfold collect_from_dependencies_map at hr
      rw [List.mem_cons] at hr
      rcases hr with hr | hr
      · subst hr
        simp only
        cases hl : (value.get "license").bind extract_license with
        | none => left; simp [hl]
        | some s =>
          right
          obtain ⟨j, hj, hjs⟩ := Option.bind_eq_some.mp hl
          exact ⟨j, by simp [hl, hjs]⟩
      · have hcons : sizeOf ((name, value) :: rest) =
            1 + sizeOf (name, value) + sizeOf rest := by simp
        have hpair : sizeOf (name, value) = 1 + sizeOf name + sizeOf value := by
          simp
        rw [List.mem_append] at hr
        rcases hr with hr | hr
        · revert hr
          split
          · rename_i inner heq
            intro hr
            have hsz : sizeOf inner ≤ n := by
              have h1 := sizeOf_json_get heq
              have hobj : sizeOf (Json.obj inner) = 1 + sizeOf inner := by simp
              omega
            exact ih source inner hsz r hr
          · intro hr
            simp at hr
        · have hsz : sizeOf rest ≤ n := by omega
          exact ih source rest hsz r hr

theorem parse_package_lock_license (json : Json) (source : List String) :
    ∀ r ∈ parse_package_lock json source,
      r.license = "Unknown" ∨ ∃ v, extract_license v = some r.license := by
  intro r hr
  unfold parse_package_lock at hr
  cases hp : (json.get "packages").bind Json.asObj? with
  | some packages =>
    rw [hp] at hr
    simp only at hr
    rw [List.mem_filterMap] at hr
    obtain ⟨p, hmem, hbuild⟩ := hr
    rw [build_package_lock_record_license p.1 p.2 source json r hbuild]
    cases hl : (p.2.get "license").bind extract_license with
    | none => left; rfl
    | some s =>
      right
      obtain ⟨j, hj, hjs⟩ := Option.bind_eq_some.mp hl
      exact ⟨j, by simp [hjs]⟩
  | none =>
    rw [hp] at hr
    simp only at hr
    cases hd : (json.get "dependencies").bind Json.asObj? with
    | some deps =>
      rw [hd] at hr
      exact collect_deps_license (sizeOf deps) source deps (le_refl _) r hr
    | none =>
      rw [hd] at hr
      simp at hr

/-- Claim C1 fails as stated: an npm lockfile entry whose JSON
`license` field is the empty string produces a record whose license is
the empty string, not `"Unknown"` or a non-blank value. -/
theorem C1_counterexample :
    (parse_package_lock
      (.obj [("packages", .obj
        [("node_modules/foo", .obj
          [("version", .str "1.0.0"), ("license", .str "")])])])
      ["proj", "package-lock.json"]).map (fun r => r.license) = [""] := by
  decide

/-- Claim C1 (amended): the pip parser always sets license
`"Unknown"`; an npm lockfile record's license is `"Unknown"` exactly
when the entry's license field yields no extraction, and otherwise is
the extracted string — which is empty precisely when extraction
returned the empty string (e.g. a JSON `""` license); enrichment
preserves non-emptiness whenever the applied metadata's license is not
the empty string. -/
theorem C1_license_amended :
    (∀ lines source r, r ∈ parse_requirements lines source →
      r.license = "Unknown") ∧
    (∀ pkg_path info source root_json r,
      build_package_lock_record pkg_path info source root_json = some r →
      r.license = ((info.get "license").bind extract_license).getD "Unknown" ∧
        (((info.get "license").bind extract_license) ≠ some "" →
          r.license ≠ "")) ∧
    (∀ json source r, r ∈ parse_package_lock json source →
      r.license = "Unknown" ∨ ∃ v, extract_license v = some r.license) ∧
    (∀ record meta, record.license ≠ "" →
      (∀ l, meta.license = some l → l ≠ "") →
      (apply_metadata record (some meta)).license ≠ "") := by
  refine ⟨?_, ?_, parse_package_lock_license, ?_⟩
  · intro lines source r hr
    unfold parse_requirements at hr
    rw [List.mem_filterMap] at hr
    obtain ⟨line, hline, hparse⟩ := hr
    cases hp : parse_requirement_line line with
    | none => rw [hp] at hparse; exact Option.noConfusion hparse
    | some nv =>
      rw [hp] at hparse
      injection hparse with h'
      rw [← h']
  · intro pkg_path info source root_json r hbuild
    have hlic := build_package_lock_record_license pkg_path info source root_json r hbuild
    refine ⟨hlic, fun hne => ?_⟩
    cases hl : (info.get "license").bind extract_license with
    | none =>
      rw [hlic, hl]
      decide
    | some s =>
      rw [hlic, hl]
      intro hs
      simp only [Option.getD_some] at hs
      exact hne (hl.trans (by rw [hs]))
  · intro record meta hrec hmeta
    rw [apply_metadata_license_eq]
    by_cases hs : should_update_license record.license meta.license = true
    · rw [if_pos hs]
      cases hml : meta.license with
      | none => simpa using hrec
      | some l => simpa using hmeta l hml
    · rw [if_neg hs]
      exact hrec

/-- Concrete instance of `C1_license_amended`: a `flask==2.0.1`
requirement line yields license `"Unknown"`. -/
theorem C1_license_amended_witness :
    ({ manager := "pip", name := "flask", version := some "2.0.1",
       license := "Unknown", source := ["proj", "requirements.txt"],
       homepage := none } : DependencyRecord).license = "Unknown" :=
  C1_license_amended.1
    [['f','l','a','s','k','=','=','2','.','0','.','1']]
    ["proj", "requirements.txt"] _ (by decide)

/-! ## Directory traversal pruning (Claim C9) -/

theorem parse_requirements_source (lines : List (List Char))
    (source : List String) : ∀ r ∈ parse_requirements lines source,
      r.source = source := by
  intro r hr
  unfold parse_requirements at hr
  rw [List.mem_filterMap] at hr
  obtain ⟨line, hline, hparse⟩ := hr
  cases hp : parse_requirement_line line with
  | none => rw [hp] at hparse; exact Option.noConfusion hparse
  | some nv =>
    rw [hp] at hparse
    injection hparse with h'
    rw [← h']

theorem build_package_lock_record_source (pkg_path : String) (info : Json)
    (source : List String) (root_json : Json) (r : DependencyRecord)
    (h : build_package_lock_record pkg_path info source root_json = some r) :
    r.source = source := by
  unfold build_package_lock_record at h
  simp only at h
  split at h
  · exact Option.noConfusion h
  · injection h with h'
    rw [← h']

theorem collect_deps_source (n : Nat) :
    ∀ (source : List String) (map : List (String × Json)), sizeOf map ≤ n →
      ∀ r ∈ collect_from_dependencies_map source map, r.source = source := by
  induction n with
  | zero =>
    intro source map h
    cases map <;> simp at h
  | succ n ih =>
    intro source map hle r hr
    match map with
    | [] => simp [collect_from_dependencies_map] at hr
    | (name, value) :: rest =>
      unfold collect_from_dependencies_map at hr
      rw [List.mem_cons] at hr
      have hcons : sizeOf ((name, value) :: rest) =
          1 + sizeOf (name, value) + sizeOf rest := by simp
      have hpair : sizeOf (name, value) = 1 + sizeOf name + sizeOf value := by
        simp
      rcases hr with hr | hr
      · subst hr; rfl
      · rw [List.mem_append] at hr
        rcases hr with hr | hr
        · revert hr
          split
          · rename_i inner heq
            intro hr
            have hsz : sizeOf inner ≤ n := by
              have h1 := sizeOf_json_get heq
              have hobj : sizeOf (Json.obj inner) = 1 + sizeOf inner := by simp
              omega
            exact ih source inner hsz r hr
          · intro hr
            simp at hr
        · have hsz : sizeOf rest ≤ n := by omega
          exact ih source rest hsz r hr

theorem parse_package_lock_source (json : Json) (source : List String) :
    ∀ r ∈ parse_package_lock json source, r.source = source := by
  intro r hr
  unfold parse_package_lock at hr
  cases hp : (json.get "packages").bind Json.asObj? with
  | some packages =>
    rw [hp] at hr
    simp only at hr
    rw [List.mem_filterMap] at hr
    obtain ⟨p, hmem, hbuild⟩ := hr
    exact build_package_lock_record_source p.1 p.2 source json r hbuild
  | none =>
    rw [hp] at hr
    simp only at hr
    cases hd : (json.get "dependencies").bind Json.asObj? with
    | some deps =>
      rw [hd] at hr
      exact collect_deps_source (sizeOf deps) source deps (le_refl _) r hr
    | none =>
      rw [hd] at hr
      simp at hr

/-- For a kept entry below the root, the `filter_entry` predicate pins
its depth under the cap and its name off the denylist. -/
theorem keepEntry_spec (d : Nat) (name : String) (hd : 1 ≤ d)
    (h : keepEntry d name = true) : d ≤ 64 ∧ excludedName name = false := by
  unfold keepEntry at h
  rw [if_neg (by omega)] at h
  rw [Bool.and_eq_true] at h
  exact ⟨by simpa using h.1, by simpa using h.2⟩

/-- Records produced by any file entry kept at depth `d`, parsed with
source `p ++ [name]`. -/
theorem collectEntry_file_sources (name : String) (content : FileContent)
    (d : Nat) (p : List String) (recs : List DependencyRecord)
    (h : collectEntry (.file name content) d p = .ok recs) :
    ∀ r ∈ recs, r.source = p ++ [name] := by
  intro r hr
  unfold collectEntry at h
  by_cases hk : keepEntry d name = true
  · rw [if_pos hk] at h
    revert h
    split
    · intro h
      injection h with h'
      rw [← h'] at hr
      exact parse_requirements_source _ _ r hr
    · intro h
      injection h with h'
      rw [← h'] at hr
      exact parse_package_lock_source _ _ r hr
    · intro h
      exact Except.noConfusion h
    · intro h
      injection h with h'
      rw [← h'] at hr
      simp at hr
  · rw [if_neg hk] at h
    injection h with h'
    rw [← h'] at hr
    simp at hr

theorem collect_sources (n : Nat) :
    (∀ (t : FsTree) (d : Nat) (p : List String)
        (recs : List DependencyRecord), sizeOf t ≤ n → 1 ≤ d →
      collectEntry t d p = .ok recs →
      ∀ r ∈ recs, ∃ suffix, r.source = p ++ suffix ∧ 1 ≤ suffix.length ∧
        d + suffix.length ≤ 65 ∧ ∀ c ∈ suffix, excludedName c = false) ∧
    (∀ (ts : List FsTree) (d : Nat) (p : List String)
        (recs : List DependencyRecord), sizeOf ts ≤ n → 1 ≤ d →
      collectChildren ts d p = .ok recs →
      ∀ r ∈ recs, ∃ suffix, r.source = p ++ suffix ∧ 1 ≤ suffix.length ∧
        d + suffix.length ≤ 65 ∧ ∀ c ∈ suffix, excludedName c = false) := by
  induction n with
  | zero =>
    constructor
    · intro t d p recs h
      cases t <;> simp at h
    · intro ts d p recs h
      cases ts <;> simp at h
  | succ n ih =>
    constructor
    · intro t d p recs hsz hd hcol r hr
      cases t with
      | file name content =>
        have hkeep : keepEntry d name = true := by
          by_contra hk
          unfold collectEntry at hcol
          rw [if_neg hk] at hcol
          injection hcol with h'
          rw [← h'] at hr
          simp at hr
        obtain ⟨hd64, hexcl⟩ := keepEntry_spec d name hd hkeep
        refine ⟨[name], collectEntry_file_sources name content d p recs hcol r hr,
          by simp, by simp; omega, ?_⟩
        intro c hc
        rw [List.mem_singleton] at hc
        rw [hc]
        exact hexcl
      | dir name children =>
        unfold collectEntry at hcol
        by_cases hk : keepEntry d name = true
        · rw [if_pos hk] at hcol
          obtain ⟨hd64, hexcl⟩ := keepEntry_spec d name hd hk
          have hszc : sizeOf children ≤ n := by
            have : sizeOf (FsTree.dir name children) =
                1 + sizeOf name + sizeOf children := by simp
            have hs : 0 < sizeOf name := by
              cases name
              simp
            omega
          obtain ⟨suffix, hsrc, hlen, hcap, hall⟩ :=
            ih.2 children (d + 1) (p ++ [name]) recs hszc (by omega) hcol r hr
          refine ⟨name :: suffix, ?_, by simp, by simp; omega, ?_⟩
          · rw [hsrc]
            simp
          · intro c hc
            rw [List.mem_cons] at hc
            rcases hc with hc | hc
            · rw [hc]; exact hexcl
            · exact hall c hc
        · rw [if_neg hk] at hcol
          injection hcol with h'
          rw [← h'] at hr
          simp at hr
    · intro ts d p recs hsz hd hcol r hr
      cases ts with
      | nil =>
        unfold collectChildren at hcol
        injection hcol with h'
        rw [← h'] at hr
        simp at hr
      | cons t rest =>
        unfold collectChildren at hcol
        cases he1 : collectEntry t d p with
        | error e =>
          rw [he1] at hcol
          exact Except.noConfusion hcol
        | ok l1 =>
          rw [he1] at hcol
          cases he2 : collectChildren rest d p with
          | error e =>
            rw [he2] at hcol
            exact Except.noConfusion hcol
          | ok l2 =>
            rw [he2] at hcol
            have hcol2 : Except.ok (ε := Unit) (l1 ++ l2) = Except.ok recs := hcol
            injection hcol2 with h'
            rw [← h'] at hr
            rw [List.mem_append] at hr
            have hcons : sizeOf (t :: rest) = 1 + sizeOf t + sizeOf rest := by
              simp
            rcases hr with hr | hr
            · exact ih.1 t d p l1 (by omega) hd he1 r hr
            · exact ih.2 rest d p l2 (by omega) hd he2 r hr

/-- Claim C9: directory traversal prunes, case-insensitively and
before descending, every entry below the root named in the denylist
and skips entries deeper than 64 levels; hence no scanned record's
source path contains an excluded component below the root, and the
source sits at most 64 levels below it. -/
theorem C9_traversal_prunes (root : FsTree) (recs : List DependencyRecord)
    (h : collect_records root = .ok recs) :
    ∀ r ∈ recs, r.source ≠ [] ∧
      (∀ c ∈ r.source.tail, excludedName c = false) ∧
      r.source.length ≤ 65 := by
  intro r hr
  unfold collect_records at h
  cases root with
  | file name content =>
    have hsrc := collectEntry_file_sources name content 0 [] recs h r hr
    simp only [List.nil_append] at hsrc
    rw [hsrc]
    refine ⟨by simp, by simp, by simp⟩
  | dir name children =>
    unfold collectEntry at h
    rw [if_pos (by rfl)] at h
    obtain ⟨suffix, hsrc, hlen, hcap, hall⟩ :=
      (collect_sources (sizeOf children)).2 children 1 ([] ++ [name]) recs
        (le_refl _) (by omega) h r hr
    rw [hsrc]
    refine ⟨by simp, ?_, by simp; omega⟩
    intro c hc
    simp only [List.nil_append, List.cons_append, List.tail_cons,
      List.nil_append] at hc ⊢
    exact hall c (by simpa using hc)

/-- Concrete instance of `C9_traversal_prunes`: a root with a
top-level `requirements.txt` and a `node_modules` subtree containing
another `requirements.txt` yields exactly the top-level record, whose
source avoids the denylist. -/
theorem C9_traversal_prunes_witness :
    collect_records
      (.dir "proj"
        [.file "requirements.txt"
          (.reqs [['f','l','a','s','k','=','=','2','.','0','.','1']]),
         .dir "node_modules"
          [.dir "somepkg"
            [.file "requirements.txt" (.reqs [['e','v','i','l']])]]]) =
      .ok [{ manager := "pip", name := "flask", version := some "2.0.1",
             license := "Unknown", source := ["proj", "requirements.txt"],
             homepage := none }] ∧
    (["proj", "requirements.txt"] : List String) ≠ [] ∧
    (∀ c ∈ (["proj", "requirements.txt"] : List String).tail,
      excludedName c = false) ∧
    (["proj", "requirements.txt"] : List String).length ≤ 65 := by
  refine ⟨by decide, ?_⟩
  have h := C9_traversal_prunes _ _ (by decide :
    collect_records
      (.dir "proj"
        [.file "requirements.txt"
          (.reqs [['f','l','a','s','k','=','=','2','.','0','.','1']]),
         .dir "node_modules"
          [.dir "somepkg"
            [.file "requirements.txt" (.reqs [['e','v','i','l']])]]]) =
      .ok [{ manager := "pip", name := "flask", version := some "2.0.1",
             license := "Unknown", source := ["proj", "requirements.txt"],
             homepage := none }])
    { manager := "pip", name := "flask", version := some "2.0.1",
      license := "Unknown", source := ["proj", "requirements.txt"],
      homepage := none } (by decide)
  exact h

/-! ## The pipeline sort (Claim C6) -/

/-- A comparator that is antisymmetric under `swap`, whose `eq` means
equality, and whose `lt` is transitive. -/
def CmpLawful {α : Type} (cmp : α → α → Ordering) : Prop :=
  (∀ a b, (cmp a b).swap = cmp b a) ∧
  (∀ a b, cmp a b = .eq ↔ a = b) ∧
  (∀ a b c, cmp a b = .lt → cmp b c = .lt → cmp a c = .lt)

theorem natCompare_swap (m n : Nat) : (compare m n).swap = compare n m := by
  rcases Nat.lt_trichotomy m n with h | h | h
  · rw [Nat.compare_eq_lt.mpr h, Nat.compare_eq_gt.mpr h]
    rfl
  · subst h
    rw [Nat.compare_eq_eq.mpr rfl]
    rfl
  · rw [Nat.compare_eq_gt.mpr h, Nat.compare_eq_lt.mpr h]
    rfl

theorem charCmp_lawful : CmpLawful charCmp := by
  refine ⟨fun a b => natCompare_swap _ _, ?_, ?_⟩
  · intro a b
    unfold charCmp
    rw [Nat.compare_eq_eq]
    constructor
    · intro h
      exact Char.eq_of_val_eq (UInt32.toNat.inj h)
    · intro h
      rw [h]
  · intro a b c hab hbc
    unfold charCmp at *
    rw [Nat.compare_eq_lt] at hab hbc ⊢
    omega

theorem listCmp_lawful {α : Type} {cmp : α → α → Ordering}
    (h : CmpLawful cmp) : CmpLawful (listCmp cmp) := by
  obtain ⟨h1, h2, h3⟩ := h
  refine ⟨?_, ?_, ?_⟩
  · intro a b
    induction a generalizing b with
    | nil => cases b <;> rfl
    | cons x xs ih =>
      cases b with
      | nil => rfl
      | cons y ys =>
        show ((cmp x y).then (listCmp cmp xs ys)).swap = _
        rw [Ordering.swap_then, h1, ih]
        rfl
  · intro a b
    induction a generalizing b with
    | nil => cases b <;> simp [listCmp]
    | cons x xs ih =>
      cases b with
      | nil => simp [listCmp]
      | cons y ys =>
        show (cmp x y).then (listCmp cmp xs ys) = .eq ↔ _
        rw [Ordering.then_eq_eq, h2, ih]
        constructor
        · rintro ⟨hx, hxs⟩
          rw [hx, hxs]
        · intro hEq
          injection hEq with hx hxs
          exact ⟨hx, hxs⟩
  · intro a b c hab hbc
    induction a generalizing b c with
    | nil =>
      cases b with
      | nil => simp [listCmp] at hab
      | cons y ys =>
        cases c with
        | nil => simp [listCmp] at hbc
        | cons z zs => rfl
    | cons x xs ih =>
      cases b with
      | nil => simp [listCmp] at hab
      | cons y ys =>
        cases c with
        | nil => simp [listCmp] at hbc
        | cons z zs =>
          rw [show listCmp cmp (x :: xs) (y :: ys) =
              (cmp x y).then (listCmp cmp xs ys) from rfl,
            Ordering.then_eq_lt] at hab
          rw [show listCmp cmp (y :: ys) (z :: zs) =
              (cmp y z).then (listCmp cmp ys zs) from rfl,
            Ordering.then_eq_lt] at hbc
          rw [show listCmp cmp (x :: xs) (z :: zs) =
              (cmp x z).then (listCmp cmp xs zs) from rfl,
            Ordering.then_eq_lt]
          rcases hab with hx | ⟨hx, hxs⟩ <;> rcases hbc with hy | ⟨hy, hys⟩
          · exact Or.inl (h3 _ _ _ hx hy)
          · exact Or.inl (by rw [← (h2 _ _).mp hy]; exact hx)
          · exact Or.inl (by rw [(h2 _ _).mp hx]; exact hy)
          · exact Or.inr ⟨by rw [(h2 _ _).mp hx]; exact hy,
              ih _ _ hxs hys⟩

theorem strCmp_lawful : CmpLawful strCmp := by
  have hl := listCmp_lawful charCmp_lawful
  refine ⟨fun a b => hl.1 a.data b.data, ?_, fun a b c => hl.2.2 _ _ _⟩
  intro a b
  unfold strCmp charsCmp
  rw [hl.2.1]
  constructor
  · intro h
    cases a
    cases b
    simp only at h
    rw [h]
  · intro h
    rw [h]

theorem optionCmp_lawful {α : Type} {cmp : α → α → Ordering}
    (h : CmpLawful cmp) : CmpLawful (optionCmp cmp) := by
  obtain ⟨h1, h2, h3⟩ := h
  refine ⟨?_, ?_, ?_⟩
  · intro a b
    cases a <;> cases b <;> first | rfl | exact h1 _ _
  · intro a b
    cases a <;> cases b <;> simp [optionCmp, h2]
  · intro a b c hab hbc
    cases a <;> cases b <;> cases c <;>
      simp_all [optionCmp]
    exact h3 _ _ _ hab hbc

/-- Lexicographic combination of two comparators, the shape of Rust's
`cmp.then(...)` chains on projections. -/
def pairCmp {α β : Type} (ca : α → α → Ordering) (cb : β → β → Ordering)
    (x y : α × β) : Ordering :=
  (ca x.1 y.1).then (cb x.2 y.2)

theorem pairCmp_lawful {α β : Type} {ca : α → α → Ordering}
    {cb : β → β → Ordering} (ha : CmpLawful ca) (hb : CmpLawful cb) :
    CmpLawful (pairCmp ca cb) := by
  obtain ⟨ha1, ha2, ha3⟩ := ha
  obtain ⟨hb1, hb2, hb3⟩ := hb
  refine ⟨?_, ?_, ?_⟩
  · intro x y
    unfold pairCmp
    rw [Ordering.swap_then, ha1, hb1]
  · intro x y
    unfold pairCmp
    rw [Ordering.then_eq_eq, ha2, hb2, Prod.ext_iff]
  · intro x y z hxy hyz
    unfold pairCmp at hxy hyz ⊢
    rw [Ordering.then_eq_lt] at hxy hyz ⊢
    rcases hxy with h1 | ⟨h1, h2⟩ <;> rcases hyz with h3 | ⟨h3, h4⟩
    · exact Or.inl (ha3 _ _ _ h1 h3)
    · exact Or.inl (by rw [← (ha2 _ _).mp h3]; exact h1)
    · exact Or.inl (by rw [(ha2 _ _).mp h1]; exact h3)
    · exact Or.inr ⟨by rw [(ha2 _ _).mp h1]; exact h3, hb3 _ _ _ h2 h4⟩

/-- The sort key of a record. -/
def keyOf (r : DependencyRecord) :
    String × String × Option String × List String :=
  (r.manager, r.name, r.version, r.source)

/-- The comparator on sort keys. -/
def keyCmp :
    (String × String × Option String × List String) →
    (String × String × Option String × List String) → Ordering :=
  pairCmp strCmp (pairCmp strCmp (pairCmp (optionCmp strCmp) pathCmp))

theorem recordCmp_eq_keyCmp (a b : DependencyRecord) :
    recordCmp a b = keyCmp (keyOf a) (keyOf b) := rfl

theorem keyCmp_lawful : CmpLawful keyCmp :=
  pairCmp_lawful strCmp_lawful
    (pairCmp_lawful strCmp_lawful
      (pairCmp_lawful (optionCmp_lawful strCmp_lawful)
        (listCmp_lawful strCmp_lawful)))

theorem cmpLe_trans {α : Type} {cmp : α → α → Ordering} (h : CmpLawful cmp)
    (a b c : α) (hab : cmp a b ≠ .gt) (hbc : cmp b c ≠ .gt) :
    cmp a c ≠ .gt := by
  have hmem : ∀ (x y : α), cmp x y = .lt ∨ cmp x y = .eq ∨ cmp x y = .gt :=
    fun x y => by cases cmp x y <;> simp
  rcases hmem a b with h1 | h1 | h1
  · rcases hmem b c with h2 | h2 | h2
    · rw [h.2.2 _ _ _ h1 h2]
      simp
    · rw [(h.2.1 _ _).mp h2] at h1
      rw [h1]
      simp
    · exact absurd h2 hbc
  · rw [(h.2.1 _ _).mp h1]
    exact hbc
  · exact absurd h1 hab

theorem recordLe_eq_true_iff (a b : DependencyRecord) :
    recordLe a b = true ↔ recordCmp a b ≠ .gt := by
  unfold recordLe
  exact decide_eq_true_iff

theorem recordLe_trans (a b c : DependencyRecord)
    (hab : recordLe a b = true) (hbc : recordLe b c = true) :
    recordLe a c = true := by
  rw [recordLe_eq_true_iff] at hab hbc ⊢
  rw [recordCmp_eq_keyCmp] at hab hbc ⊢
  exact cmpLe_trans keyCmp_lawful _ _ _ hab hbc

theorem recordLe_total (a b : DependencyRecord) :
    (recordLe a b || recordLe b a) = true := by
  rw [Bool.or_eq_true, recordLe_eq_true_iff, recordLe_eq_true_iff]
  by_cases hg : recordCmp a b = .gt
  · right
    rw [recordCmp_eq_keyCmp] at hg ⊢
    rw [← keyCmp_lawful.1, hg]
    decide
  · exact Or.inl hg

/-- Claim C6 (amended): the pipeline sort is a stable, total sort by
`(manager, name, version, source)` ascending — the comparator is total
and transitive, the output is a sorted permutation of the input, and
elements already mutually ordered keep their relative order. An absent
version sorts before any present one, and two records differing only in
`source` are ordered by component-wise path comparison (Rust `Path`
ordering), not by the raw path string. -/
theorem C6_sort_stable_total (rs : List DependencyRecord) :
    (∀ a b : DependencyRecord, recordLe a b = true ∨ recordLe b a = true) ∧
    (∀ a b c : DependencyRecord, recordLe a b = true → recordLe b c = true →
      recordLe a c = true) ∧
    (sortRecords rs).Perm rs ∧
    (sortRecords rs).Pairwise (fun a b => recordLe a b = true) ∧
    (∀ c : List DependencyRecord,
      c.Pairwise (fun a b => recordLe a b = true) → c.Sublist rs →
      c.Sublist (sortRecords rs)) ∧
    (∀ a b : DependencyRecord, a.manager = b.manager → a.name = b.name →
      a.version = b.version → recordCmp a b = pathCmp a.source b.source) ∧
    (∀ a b : DependencyRecord, a.manager = b.manager → a.name = b.name →
      a.version = none → b.version ≠ none → recordCmp a b = .lt) := by
  have htotal : ∀ a b : DependencyRecord, (recordLe a b || recordLe b a) = true :=
    recordLe_total
  refine ⟨?_, recordLe_trans, List.mergeSort_perm rs recordLe,
    List.sorted_mergeSort recordLe_trans htotal rs,
    fun c hc hsub => List.sublist_mergeSort recordLe_trans htotal hc hsub,
    ?_, ?_⟩
  · intro a b
    rcases Bool.or_eq_true _ _ |>.mp (htotal a b) with h | h
    · exact Or.inl h
    · exact Or.inr h
  · intro a b hm hn hv
    unfold recordCmp
    rw [hm, hn, hv, (strCmp_lawful.2.1 _ _).mpr rfl,
      (strCmp_lawful.2.1 _ _).mpr rfl,
      ((optionCmp_lawful strCmp_lawful).2.1 _ _).mpr rfl]
    rfl
  · intro a b hm hn hv hbv
    unfold recordCmp
    rw [hm, hn, (strCmp_lawful.2.1 _ _).mpr rfl,
      (strCmp_lawful.2.1 _ _).mpr rfl]
    cases hb : b.version with
    | none => exact absurd hb hbv
    | some v =>
      rw [hv]
      rfl

/-- Concrete instance of `C6_sort_stable_total`: with equal manager and
name, an absent version sorts strictly before a present one. -/
theorem C6_sort_stable_total_witness :
    recordCmp
      { manager := "pip", name := "requests", version := none,
        license := "Unknown", source := ["a"], homepage := none }
      { manager := "pip", name := "requests", version := some "2.32.0",
        license := "Unknown", source := ["a"], homepage := none } =
      Ordering.lt :=
  (C6_sort_stable_total []).2.2.2.2.2.2
    { manager := "pip", name := "requests", version := none,
      license := "Unknown", source := ["a"], homepage := none }
    { manager := "pip", name := "requests", version := some "2.32.0",
      license := "Unknown", source := ["a"], homepage := none }
    rfl rfl rfl (by decide)

/-- Claim C6 fails in its path-string form: two records differing only
in `source` (`a/b` versus `a!b`) are ordered by path components —
`a/b` first — although ascending comparison of the path strings puts
`"a!b"` first. -/
theorem C6_counterexample :
    sortRecords
      [{ manager := "npm", name := "p", version := none, license := "MIT",
         source := ["a!b"], homepage := none },
       { manager := "npm", name := "p", version := none, license := "MIT",
         source := ["a", "b"], homepage := none }] =
      [{ manager := "npm", name := "p", version := none, license := "MIT",
         source := ["a", "b"], homepage := none },
       { manager := "npm", name := "p", version := none, license := "MIT",
         source := ["a!b"], homepage := none }] ∧
    strCmp (pathString ["a", "b"]) (pathString ["a!b"]) = .gt := by
  constructor
  · unfold sortRecords List.mergeSort
    simp only [List.splitInTwo]
    have hle : recordLe
        { manager := "npm", name := "p", version := none, license := "MIT",
          source := ["a!b"], homepage := none }
        { manager := "npm", name := "p", version := none, license := "MIT",
          source := ["a", "b"], homepage := none } = false := by decide
    simp [List.merge, hle]
  · decide

/-! ## Pip requirement-line round trip (Claim C4) -/

/-- No occurrence of `===` anywhere in the list. -/
def tripleEqFree : List Char → Bool
  | [] => true
  | c :: t => !((['=','=','=']).isPrefixOf (c :: t)) && tripleEqFree t

/-- A package name the `name==version` rendering round-trips through:
non-empty, no surrounding whitespace, not starting with `-`, and free
of `#`, `;`, `=`, `[`, `_`. -/
def goodReqName (n : List Char) : Bool :=
  !n.isEmpty &&
  (n.head?.all fun c => !(isWs c) && c != '-') &&
  (n.getLast?.all fun c => !(isWs c)) &&
  n.all (fun c => c != '#' && c != ';' && c != '=' && c != '[' && c != '_')

/-- A version the rendering round-trips through: non-empty, no
surrounding whitespace, not starting with `=`, free of `#` and `;`,
and containing no `===`. -/
def goodReqVersion (v : List Char) : Bool :=
  !v.isEmpty &&
  (v.head?.all fun c => !(isWs c) && c != '=') &&
  (v.getLast?.all fun c => !(isWs c)) &&
  v.all (fun c => c != '#' && c != ';') &&
  tripleEqFree v

theorem takeWhile_all {α : Type} (p : α → Bool) (l : List α)
    (h : ∀ c ∈ l, p c = true) : l.takeWhile p = l := by
  induction l with
  | nil => rfl
  | cons x xs ih =>
    rw [List.takeWhile_cons, if_pos (h x (by simp)),
      ih (fun c hc => h c (by simp [hc]))]

theorem takeWhile_ne_char (ch : Char) (l : List Char) (h : ∀ c ∈ l, c ≠ ch) :
    l.takeWhile (· ≠ ch) = l := by
  apply takeWhile_all
  intro c hc
  simpa using h c hc

theorem dropWhile_of_head (p : Char → Bool) (l : List Char)
    (h : ∀ c, l.head? = some c → p c = false) : l.dropWhile p = l := by
  cases l with
  | nil => rfl
  | cons x xs =>
    rw [List.dropWhile_cons, if_neg]
    rw [h x rfl]
    simp

theorem trimL_eq_self (l : List Char)
    (hhead : ∀ c, l.head? = some c → isWs c = false)
    (hlast : ∀ c, l.getLast? = some c → isWs c = false) :
    trimL l = l := by
  unfold trimL
  rw [dropWhile_of_head isWs l hhead]
  rw [dropWhile_of_head isWs l.reverse
    (fun c hc => hlast c (by rwa [List.head?_reverse] at hc))]
  exact List.reverse_reverse l

theorem map_underscore_id (l : List Char) (h : ∀ c ∈ l, c ≠ '_') :
    l.map (fun c => if c = '_' then '-' else c) = l := by
  induction l with
  | nil => rfl
  | cons x xs ih =>
    simp only [List.map_cons]
    rw [if_neg (h x (by simp)), ih (fun c hc => h c (by simp [hc]))]

theorem findSub_eq_none (l pat : List Char)
    (h : ∀ i, (pat.isPrefixOf (l.drop i)) = false) : findSub l pat = none := by
  induction l with
  | nil =>
    have h0 := h 0
    rw [List.drop_nil] at h0
    unfold findSub
    rw [if_neg (by simp [h0])]
  | cons c t ih =>
    have h0 := h 0
    rw [List.drop_zero] at h0
    unfold findSub
    rw [if_neg (by simp [h0])]
    show Option.map (fun x => x + 1) (findSub t pat) = none
    rw [ih (fun i => by have hi := h (i + 1); rwa [List.drop_succ_cons] at hi)]
    rfl

theorem findSub_marker (n v : List Char) (h : ∀ c ∈ n, c ≠ '=') :
    findSub (n ++ '=' :: '=' :: v) ['=', '='] = some n.length := by
  induction n with
  | nil =>
    unfold findSub
    rw [if_pos (by simp [List.isPrefixOf])]
    rfl
  | cons c t ih =>
    have hc : ('=' == c) = false :=
      beq_eq_false_iff_ne.mpr (Ne.symm (h c (by simp)))
    unfold findSub
    rw [if_neg (by simp [List.isPrefixOf, hc])]
    show Option.map (fun x => x + 1)
      (findSub (t ++ '=' :: '=' :: v) ['=','=']) = some (c :: t).length
    rw [ih (fun x hx => h x (by simp [hx]))]
    rfl

theorem tripleEqFree_drop (v : List Char) (h : tripleEqFree v = true) :
    ∀ k, ((['=','=','=']).isPrefixOf (v.drop k)) = false := by
  induction v with
  | nil =>
    intro k
    rw [List.drop_nil]
    rfl
  | cons c t ih =>
    intro k
    unfold tripleEqFree at h
    rw [Bool.and_eq_true] at h
    cases k with
    | zero =>
      rw [List.drop_zero]
      simpa using h.1
    | succ k =>
      rw [List.drop_succ_cons]
      exact ih h.2 k

theorem no_triple (v : List Char)
    (hvh : ∀ c, v.head? = some c → c ≠ '=')
    (hv3 : tripleEqFree v = true) :
    ∀ (n : List Char), (∀ c ∈ n, c ≠ '=') →
      ∀ i, ((['=','=','=']).isPrefixOf ((n ++ '=' :: '=' :: v).drop i)) = false := by
  intro n
  induction n with
  | nil =>
    intro _ i
    rw [List.nil_append]
    match i with
    | 0 =>
      rw [List.drop_zero]
      cases v with
      | nil => decide
      | cons c u =>
        have hc : ('=' == c) = false :=
          beq_eq_false_iff_ne.mpr (Ne.symm (hvh c rfl))
        simp [List.isPrefixOf, hc]
    | 1 =>
      rw [show List.drop 1 ('=' :: '=' :: v) = '=' :: v from rfl]
      cases v with
      | nil => decide
      | cons c u =>
        have hc : ('=' == c) = false :=
          beq_eq_false_iff_ne.mpr (Ne.symm (hvh c rfl))
        simp [List.isPrefixOf, hc]
    | (k+2) =>
      rw [show List.drop (k+2) ('=' :: '=' :: v) = v.drop k from by
        rw [show k + 2 = (k + 1) + 1 from rfl, List.drop_succ_cons,
          List.drop_succ_cons]]
      exact tripleEqFree_drop v hv3 k
  | cons c t ih =>
    intro hn i
    match i with
    | 0 =>
      rw [List.cons_append, List.drop_zero]
      have hc : ('=' == c) = false :=
        beq_eq_false_iff_ne.mpr (Ne.symm (hn c (by simp)))
      simp [List.isPrefixOf, hc]
    | (k+1) =>
      rw [List.cons_append, List.drop_succ_cons]
      exact ih (fun x hx => hn x (by simp [hx])) k

/-- Claim C4 fails as stated: the accepted line `foo====1.0` parses to
`("foo", "=1.0")`, but parsing the derived `foo==` ++ `=1.0` (that is,
`foo===1.0`) matches the higher-priority `===` token and yields
`("foo", "1.0")`. -/
theorem C4_counterexample :
    parse_requirement_line ['f','o','o','=','=','=','=','1','.','0'] =
      some (['f','o','o'], some ['=','1','.','0']) ∧
    parse_requirement_line (['f','o','o'] ++ '=' :: '=' :: ['=','1','.','0']) =
      some (['f','o','o'], some ['1','.','0']) ∧
    (['1','.','0'] : List Char) ≠ ['=','1','.','0'] := by
  refine ⟨by decide, by decide, by decide⟩

/-- Claim C4 (amended): for well-behaved pairs — a name that is
non-empty, untrimmed-free, not starting with `-` and containing none of
`#`, `;`, `=`, `[`, `_`, and a version that is non-empty,
untrimmed-free, not starting with `=`, containing no `#`, `;` and no
`===` — parsing the rendered `name == version` line yields exactly that
pair. (In general re-parsing can split elsewhere, see the
counterexample.) -/
theorem C4_pip_roundtrip_amended (n v : List Char)
    (hn : goodReqName n = true) (hv : goodReqVersion v = true) :
    parse_requirement_line (n ++ '=' :: '=' :: v) = some (n, some v) := by
  unfold goodReqName at hn
  rw [Bool.and_eq_true, Bool.and_eq_true, Bool.and_eq_true] at hn
  obtain ⟨⟨⟨hn1, hn2⟩, hn3⟩, hn4⟩ := hn
  unfold goodReqVersion at hv
  rw [Bool.and_eq_true, Bool.and_eq_true, Bool.and_eq_true,
    Bool.and_eq_true] at hv
  obtain ⟨⟨⟨⟨hv1, hv2⟩, hv3⟩, hv4⟩, hv5⟩ := hv
  have hnne : n ≠ [] := by simpa [List.isEmpty_eq_false] using hn1
  have hvne : v ≠ [] := by simpa [List.isEmpty_eq_false] using hv1
  obtain ⟨c0, hc0⟩ : ∃ c, n.head? = some c := by
    cases n with
    | nil => exact absurd rfl hnne
    | cons c t => exact ⟨c, rfl⟩
  obtain ⟨cl, hcl⟩ : ∃ c, n.getLast? = some c :=
    Option.isSome_iff_exists.mp (List.getLast?_isSome.mpr hnne)
  obtain ⟨d0, hd0⟩ : ∃ c, v.head? = some c := by
    cases v with
    | nil => exact absurd rfl hvne
    | cons c t => exact ⟨c, rfl⟩
  obtain ⟨dl, hdl⟩ : ∃ c, v.getLast? = some c :=
    Option.isSome_iff_exists.mp (List.getLast?_isSome.mpr hvne)
  have hnchars : ∀ c ∈ n, c ≠ '#' ∧ c ≠ ';' ∧ c ≠ '=' ∧ c ≠ '[' ∧ c ≠ '_' := by
    intro c hc
    have hx := List.all_eq_true.mp hn4 c hc
    simp only [Bool.and_eq_true, bne_iff_ne] at hx
    exact ⟨hx.1.1.1.1, hx.1.1.1.2, hx.1.1.2, hx.1.2, hx.2⟩
  have hvchars : ∀ c ∈ v, c ≠ '#' ∧ c ≠ ';' := by
    intro c hc
    have hx := List.all_eq_true.mp hv4 c hc
    simp only [Bool.and_eq_true, bne_iff_ne] at hx
    exact hx
  have hc0w : isWs c0 = false ∧ c0 ≠ '-' := by
    rw [hc0] at hn2
    simp only [Option.all_some, Bool.and_eq_true, Bool.not_eq_true',
      bne_iff_ne] at hn2
    exact hn2
  have hclw : isWs cl = false := by
    rw [hcl] at hn3
    simpa only [Option.all_some, Bool.not_eq_true'] using hn3
  have hd0w : isWs d0 = false ∧ d0 ≠ '=' := by
    rw [hd0] at hv2
    simp only [Option.all_some, Bool.and_eq_true, Bool.not_eq_true',
      bne_iff_ne] at hv2
    exact hv2
  have hdlw : isWs dl = false := by
    rw [hdl] at hv3
    simpa only [Option.all_some, Bool.not_eq_true'] using hv3
  have hnhead : ∀ c, n.head? = some c → isWs c = false := by
    intro c hc
    rw [hc0] at hc
    injection hc with hc
    rw [← hc]
    exact hc0w.1
  have hnlast : ∀ c, n.getLast? = some c → isWs c = false := by
    intro c hc
    rw [hcl] at hc
    injection hc with hc
    rw [← hc]
    exact hclw
  have hvhead : ∀ c, v.head? = some c → isWs c = false := by
    intro c hc
    rw [hd0] at hc
    injection hc with hc
    rw [← hc]
    exact hd0w.1
  have hvlast : ∀ c, v.getLast? = some c → isWs c = false := by
    intro c hc
    rw [hdl] at hc
    injection hc with hc
    rw [← hc]
    exact hdlw
  have hdh : (n ++ '=' :: '=' :: v).head? = some c0 := by
    rw [List.head?_append, hc0, Option.or_some]
  have hdl2 : (n ++ '=' :: '=' :: v).getLast? = some dl := by
    rw [List.getLast?_append,
      show ('=' :: '=' :: v) = ['=','='] ++ v from rfl,
      List.getLast?_append, hdl, Option.or_some, Option.or_some]
  have hdhead : ∀ c, (n ++ '=' :: '=' :: v).head? = some c → isWs c = false := by
    intro c hc
    rw [hdh] at hc
    injection hc with hc
    rw [← hc]
    exact hc0w.1
  have hdlast : ∀ c, (n ++ '=' :: '=' :: v).getLast? = some c →
      isWs c = false := by
    intro c hc
    rw [hdl2] at hc
    injection hc with hc
    rw [← hc]
    exact hdlw
  have hdne : n ++ '=' :: '=' :: v ≠ [] := by
    intro hc
    exact hnne (List.append_eq_nil.mp hc).1
  have hallhash : ∀ c ∈ n ++ '=' :: '=' :: v, c ≠ '#' := by
    intro c hc
    rw [List.mem_append] at hc
    rcases hc with hc | hc
    · exact (hnchars c hc).1
    · simp only [List.mem_cons] at hc
      rcases hc with rfl | rfl | hc
      · decide
      · decide
      · exact (hvchars c hc).1
  have hallsemi : ∀ c ∈ n ++ '=' :: '=' :: v, c ≠ ';' := by
    intro c hc
    rw [List.mem_append] at hc
    rcases hc with hc | hc
    · exact (hnchars c hc).2.1
    · simp only [List.mem_cons] at hc
      rcases hc with rfl | rfl | hc
      · decide
      · decide
      · exact (hvchars c hc).2
  have hfind3 : findSub (n ++ '=' :: '=' :: v) ['=','=','='] = none :=
    findSub_eq_none _ _
      (no_triple v (fun c hc => by
          rw [hd0] at hc
          injection hc with hc
          rw [← hc]
          exact hd0w.2) hv5
        n (fun c hc => (hnchars c hc).2.2.1))
  have hfind2 : findSub (n ++ '=' :: '=' :: v) ['=','='] = some n.length :=
    findSub_marker n v (fun c hc => (hnchars c hc).2.2.1)
  have hdrop : (n ++ '=' :: '=' :: v).drop (n.length + 2) = v := by
    rw [← List.drop_drop, List.drop_left]
    simp
  have hnempty : n.isEmpty = false := List.isEmpty_eq_false.mpr hnne
  have hvempty : v.isEmpty = false := List.isEmpty_eq_false.mpr hvne
  have hdempty : (n ++ '=' :: '=' :: v).isEmpty = false :=
    List.isEmpty_eq_false.mpr hdne
  simp only [parse_requirement_line]
  rw [takeWhile_ne_char '#' _ hallhash, trimL_eq_self _ hdhead hdlast]
  rw [if_neg (by simp [hdempty])]
  rw [if_neg (by rw [hdh]; simp [hc0w.2])]
  rw [takeWhile_ne_char ';' _ hallsemi, trimL_eq_self _ hdhead hdlast]
  rw [if_neg (by simp [hdempty])]
  simp only [markers, List.findSome?_cons, hfind3, hfind2, Option.map_none',
    Option.map_some']
  rw [List.take_left, show (['=','='] : List Char).length = 2 from rfl, hdrop]
  rw [trimL_eq_self v hvhead hvlast, trimL_eq_self n hnhead hnlast]
  unfold normalize_package_name
  rw [trimL_eq_self n hnhead hnlast]
  rw [if_neg (by simp [hnempty])]
  rw [takeWhile_ne_char '[' n (fun c hc => (hnchars c hc).2.2.2.1)]
  rw [map_underscore_id n (fun c hc => (hnchars c hc).2.2.2.2)]
  rw [if_neg (by simp [hvempty])]

/-- Concrete instance of `C4_pip_roundtrip_amended`: the pair
`("flask", "2.0.1")` round-trips through `flask==2.0.1`. -/
theorem C4_pip_roundtrip_amended_witness :
    goodReqName ['f','l','a','s','k'] = true ∧
    goodReqVersion ['2','.','0','.','1'] = true ∧
    parse_requirement_line
      (['f','l','a','s','k'] ++ '=' :: '=' :: ['2','.','0','.','1']) =
      some (['f','l','a','s','k'], some ['2','.','0','.','1']) :=
  ⟨by decide, by decide,
   C4_pip_roundtrip_amended ['f','l','a','s','k'] ['2','.','0','.','1']
     (by decide) (by decide)⟩

end LicenseScout
